import Mathlib

/-!
Verification of `lesson_2/project.go`, `lesson_2/task9.go` and `lesson_2/task5.go`.

The main part is a shallow embedding of the execution loop of `main` in
`lesson_2/project.go`, a stack bytecode interpreter: the program is a list of
Go `int`s, the evaluation stack is a Go slice whose top is its last element,
the register table is a Go `map[rune]int`, and the text written by
`fmt.Println` is kept as the list of printed values.

The Go type `int` is taken to be 64 bits wide (as on amd64 and arm64) and
`rune` is `int32`.  Values are mathematical integers; every arithmetic result
is reduced to the two-complement range explicitly.

The functions `mergeMaps` and `invertMap` are embedded over Go maps given as
entry lists in iteration order.
-/

namespace Project

/-! ## Machine integers -/

/-- The least value of a 64-bit Go `int`. -/
def minInt : Int := -9223372036854775808

/-- The greatest value of a 64-bit Go `int`. -/
def maxInt : Int := 9223372036854775807

/-- The integer `x` is representable as a 64-bit Go `int`. -/
def IsInt (x : Int) : Prop := minInt ≤ x ∧ x ≤ maxInt

instance (x : Int) : Decidable (IsInt x) := by
  unfold IsInt
  exact inferInstance

/-- Reduction of a mathematical integer to the two-complement range of a 64-bit
`int`: what the Go operators `+`, `-`, `*` and `/` on `int` keep of the exact
result. -/
def wrapInt (x : Int) : Int :=
  (x + 9223372036854775808) % 18446744073709551616 - 9223372036854775808

/-- The conversion `rune(x)` of an `int` to `int32`: the low 32 bits, signed. -/
def toRune (x : Int) : Int :=
  (x + 2147483648) % 4294967296 - 2147483648

/-! ## Opcodes (`const ( CmdAdd = iota ... )`) -/

@[reducible] def CmdAdd : Int := 0
@[reducible] def CmdSub : Int := 1
@[reducible] def CmdMul : Int := 2
@[reducible] def CmdDiv : Int := 3
@[reducible] def CmdPush : Int := 4
@[reducible] def CmdPop : Int := 5
@[reducible] def CmdPrint : Int := 6
@[reducible] def CmdSave : Int := 7
@[reducible] def CmdLoad : Int := 8

/-! ## Failures and state -/

/-- The ways the loop can panic: the five `panic(...)` messages of the source
and the run-time panic of integer division. -/
inductive Failure
  -- The message "недостаточно элементов в стеке" (Add, Sub, Mul, Div).
  | notEnoughElements
  -- The message "нет значения для Push".
  | noPushValue
  -- The message "Стек пуст" (Pop, Print, Save).
  | stackEmpty
  -- The message "Нет имени регистра" (Save, Load).
  | noRegisterName
  -- The message "Регистр не найден" (Load).
  | registerNotFound
  -- The Go run-time error "integer divide by zero".
  | divideByZero
  deriving DecidableEq, Repr

/-- The four failure kinds of the specification's error taxonomy. -/
inductive ErrorKind
  | StackUnderflow
  | MissingOperand
  | UnknownRegister
  | DivisionByZero
  deriving DecidableEq, Repr

/-- The kind of the taxonomy each panic of the source falls under. -/
def Failure.kind : Failure → ErrorKind
  | .notEnoughElements => .StackUnderflow
  | .stackEmpty => .StackUnderflow
  | .noPushValue => .MissingOperand
  | .noRegisterName => .MissingOperand
  | .registerNotFound => .UnknownRegister
  | .divideByZero => .DivisionByZero

/-- The variables of `main`: `stack`, `registers`, `index`, and the values
written so far by `fmt.Println`, oldest first. -/
structure State where
  stack : List Int
  registers : Int → Option Int
  index : Nat
  output : List Int

/-- The assignment `registers[reg] = v` on a Go map. -/
def setRegister (registers : Int → Option Int) (reg v : Int) : Int → Option Int :=
  fun k => if k = reg then some v else registers k

/-- The state before the loop: `make([]int, 0, 100)`, `make(map[rune]int)`,
`index := 0`, nothing printed. -/
def init : State :=
  { stack := [], registers := fun _ => none, index := 0, output := [] }

/-! ## The loop body -/

/-- The `switch cmd` of the loop body; `s.index` has already been advanced past
the opcode.  A panic carries the variables as they are when it is raised: Div
has already resliced the stack when the division panics, and Load has already
advanced `index` when the register is missing. -/
def exec (program : List Int) (cmd : Int) (s : State) : Except (Failure × State) State :=
  if cmd = CmdAdd then
    if h : s.stack.length < 2 then .error (.notEnoughElements, s)
    else
      let a := s.stack[s.stack.length - 2]
      let b := s.stack[s.stack.length - 1]
      let stack := s.stack.take (s.stack.length - 1)
      .ok { s with stack := stack.set (stack.length - 1) (wrapInt (a + b)) }
  else if cmd = CmdSub then
    if h : s.stack.length < 2 then .error (.notEnoughElements, s)
    else
      let a := s.stack[s.stack.length - 2]
      let b := s.stack[s.stack.length - 1]
      let stack := s.stack.take (s.stack.length - 1)
      .ok { s with stack := stack.set (stack.length - 1) (wrapInt (a - b)) }
  else if cmd = CmdMul then
    if h : s.stack.length < 2 then .error (.notEnoughElements, s)
    else
      let a := s.stack[s.stack.length - 2]
      let b := s.stack[s.stack.length - 1]
      let stack := s.stack.take (s.stack.length - 1)
      .ok { s with stack := stack.set (stack.length - 1) (wrapInt (a * b)) }
  else if cmd = CmdDiv then
    if h : s.stack.length < 2 then .error (.notEnoughElements, s)
    else
      let a := s.stack[s.stack.length - 2]
      let b := s.stack[s.stack.length - 1]
      let stack := s.stack.take (s.stack.length - 1)
      if b = 0 then .error (.divideByZero, { s with stack := stack })
      else .ok { s with stack := stack.set (stack.length - 1) (wrapInt (Int.tdiv a b)) }
  else if cmd = CmdPush then
    if h : s.index ≥ program.length then .error (.noPushValue, s)
    else
      .ok { s with stack := s.stack ++ [program[s.index]], index := s.index + 1 }
  else if cmd = CmdPop then
    if s.stack.length = 0 then .error (.stackEmpty, s)
    else .ok { s with stack := s.stack.take (s.stack.length - 1) }
  else if cmd = CmdPrint then
    if h : s.stack.length = 0 then .error (.stackEmpty, s)
    else .ok { s with output := s.output ++ [s.stack[s.stack.length - 1]] }
  else if cmd = CmdSave then
    if h : s.index ≥ program.length then .error (.noRegisterName, s)
    else if h0 : s.stack.length = 0 then .error (.stackEmpty, s)
    else
      let reg := toRune program[s.index]
      .ok { s with index := s.index + 1,
                   registers := setRegister s.registers reg s.stack[s.stack.length - 1] }
  else if cmd = CmdLoad then
    if h : s.index ≥ program.length then .error (.noRegisterName, s)
    else
      let reg := toRune program[s.index]
      match s.registers reg with
      | none => .error (.registerNotFound, { s with index := s.index + 1 })
      | some val => .ok { s with index := s.index + 1, stack := s.stack ++ [val] }
  else
    .ok s

/-- One pass through the loop: `none` when the condition `index < len(program)`
is false, otherwise the result of reading the opcode, advancing `index` and
running the `switch`. -/
def iteration (program : List Int) (s : State) : Option (Except (Failure × State) State) :=
  if h : s.index < program.length then
    some (exec program program[s.index] { s with index := s.index + 1 })
  else none

/-- How a run ends. -/
inductive Outcome
  -- The loop condition became false: normal termination.
  | finished (s : State)
  -- A panic, with the variables at that moment.
  | panicked (f : Failure) (s : State)
  -- The model's iteration budget ran out before the loop ended.
  | outOfFuel (s : State)

/-- The `for index < len(program)` loop, with a budget of iterations. -/
def loop (program : List Int) : Nat → State → Outcome
  | 0, s => if s.index < program.length then .outOfFuel s else .finished s
  | fuel + 1, s =>
    match iteration program s with
    | none => .finished s
    | some (.error e) => .panicked e.1 e.2
    | some (.ok s') => loop program fuel s'

/-- The interpreter run on `program` from the initial state.  Every iteration
advances `index`, so `len(program)` iterations are enough. -/
def run (program : List Int) : Outcome :=
  loop program program.length init

/-- The variables a run ends with, however it ends. -/
def Outcome.state : Outcome → State
  | .finished s => s
  | .panicked _ s => s
  | .outOfFuel s => s

/-! ## Traces -/

/-- The state reached from `s` by `n` passes through the loop, none of which
panics or finds the loop condition false. -/
def passes (program : List Int) : Nat → State → Option State
  | 0, s => some s
  | n + 1, s =>
    match iteration program s with
    | some (.ok s') => passes program n s'
    | _ => none

/-- The state of the run on `program` after its first `n` passes. -/
def stateAfter (program : List Int) (n : Nat) : Option State :=
  passes program n init

/-- Pass number `j` of the run (counting from 0) decodes a Save whose operand
is `x`. -/
def saveDecodedAt (program : List Int) (j : Nat) (x : Int) : Bool :=
  match stateAfter program j with
  | some s => program[s.index]? == some CmdSave && program[s.index + 1]? == some x
  | none => false

/-! ## Instruction boundaries and program edits -/

/-- The opcodes whose `case` reads `program[index]` as an operand. -/
def hasOperand (cmd : Int) : Bool :=
  cmd == CmdPush || cmd == CmdSave || cmd == CmdLoad

/-- Position `i` of the program is an instruction boundary: decoding from
position 0, one element for an opcode and two for Push, Save and Load, arrives
at `i` (the end of the program included). -/
def isBoundary : List Int → Nat → Bool
  | _, 0 => true
  | [], _ + 1 => false
  | [c], 1 => !hasOperand c
  | [_], _ + 2 => false
  | c :: _ :: _, 1 => !hasOperand c
  | c :: x :: p, i + 2 =>
    if hasOperand c then isBoundary p i else isBoundary (x :: p) (i + 1)

/-- The program with `v` inserted before position `i`. -/
def insertAt (program : List Int) (i : Nat) (v : Int) : List Int :=
  program.take i ++ v :: program.drop i

/-- The program without its element at position `i`. -/
def removeAt (program : List Int) (i : Nat) : List Int :=
  program.take i ++ program.drop (i + 1)

/-- The state with `index` moved forward by `n`. -/
def State.addIndex (n : Nat) (s : State) : State :=
  { s with index := s.index + n }

/-- The state with `out` put in front of what it has printed. -/
def State.prependOutput (out : List Int) (s : State) : State :=
  { s with output := out ++ s.output }

/-- Apply `f` to the state of a result of `exec`, panic or not. -/
def mapResult (f : State → State) :
    Except (Failure × State) State → Except (Failure × State) State
  | .ok s => .ok (f s)
  | .error e => .error (e.1, f e.2)

/-- Apply `f` to the state an outcome carries. -/
def Outcome.mapState (f : State → State) : Outcome → Outcome
  | .finished s => .finished (f s)
  | .panicked e s => .panicked e (f s)
  | .outOfFuel s => .outOfFuel (f s)

/-- The outcome with `index` forgotten: how the run ended, with which failure,
and the stack, registers and output it ended with. -/
def Outcome.eraseIndex (o : Outcome) : Outcome :=
  o.mapState (fun s => { s with index := 0 })

/-- The state `s'` has the stack and registers of `s`, and the output of `s`
with one line taken out. -/
def LessOneLine (s s' : State) : Prop :=
  s'.stack = s.stack ∧ s'.registers = s.registers
    ∧ ∃ o1 t o2, s.output = o1 ++ t :: o2 ∧ s'.output = o1 ++ o2

/-! ## Printed output along a run -/

/-- The value printed by pass number `j` of the run (counting from 0): the top
of the stack when that pass decodes a Print on a non-empty stack, nothing
otherwise. -/
def printedAt (program : List Int) (j : Nat) : Option Int :=
  match stateAfter program j with
  | some s => if program[s.index]? = some CmdPrint then s.stack.getLast? else none
  | none => none

/-- The values printed by the first `n` passes of the run, in program order. -/
def printedBefore (program : List Int) (n : Nat) : List Int :=
  (List.range n).filterMap (printedAt program)

/-! ## The program of `main` -/

/-- The literal `program` of `main`; the rune literals are written as their
code points, 1040 for the Cyrillic capital A and 1041 for the Cyrillic capital
Be. -/
def mainProgram : List Int :=
  [CmdPush, 33, CmdPush, 44, CmdAdd, CmdPush, 567, CmdSub, CmdPush,
    -13, CmdMul, CmdPush, 5, CmdDiv, CmdPush, 45, CmdPush, 21, CmdAdd, CmdMul,
    CmdPrint, CmdSave, 1040, CmdPop, CmdPush, 3, CmdPush, 9, CmdPush, 7,
    CmdSub, CmdMul, CmdLoad, 1040, CmdMul, CmdPrint, CmdSave, 1041,
    CmdLoad, 1040, CmdPush, 10230, CmdLoad, 1041, CmdSub, CmdSub,
    CmdPush, 1000, CmdDiv, CmdPrint]

/-! ## Go maps: `mergeMaps` (`lesson_2/task9.go`) and `invertMap` (`lesson_2/task5.go`)

A Go map is given as the list of its entries, in the order a `range` loop
visits them; a well-formed map has every key once.  Go leaves the iteration
order unspecified, so a statement about a map is made for every such list. -/

/-- The index expression `m[k]` with the comma-ok result: the value stored
under `k`, if any. -/
def mapLookup {κ ν : Type} [DecidableEq κ] : List (κ × ν) → κ → Option ν
  | [], _ => none
  | (k', v) :: m, k => if k' = k then some v else mapLookup m k

/-- The assignment `m[k] = v`: the entry of `k` is replaced, or a new entry is
added. -/
def mapAssign {κ ν : Type} [DecidableEq κ] : List (κ × ν) → κ → ν → List (κ × ν)
  | [], k, v => [(k, v)]
  | (k', v') :: m, k, v => if k' = k then (k, v) :: m else (k', v') :: mapAssign m k v

/-- The function `mergeMaps`: `result` starts empty, then every entry of `map1`
and after that every entry of `map2` is assigned into it. -/
def mergeMaps (map1 map2 : List (String × Int)) : List (String × Int) :=
  let result := map1.foldl (fun result e => mapAssign result e.1 e.2) []
  map2.foldl (fun result e => mapAssign result e.1 e.2) result

/-- The `for key, value := range original` loop of `invertMap`, from the entries
still to visit and the map `inverted` built so far: it returns the error naming
`value` as soon as `inverted[value]` exists. -/
def invertLoop {κ ν : Type} [DecidableEq ν] :
    List (κ × ν) → List (ν × κ) → Except ν (List (ν × κ))
  | [], inverted => .ok inverted
  | (key, value) :: rest, inverted =>
    if (mapLookup inverted value).isSome then .error value
    else invertLoop rest (mapAssign inverted value key)

/-- The function `invertMap`; an error carries the value its message names.  The
source has keys of type `string` and values of type `int`; the types are left
open here so that the result can be inverted again. -/
def invertMap {κ ν : Type} [DecidableEq ν] (original : List (κ × ν)) :
    Except ν (List (ν × κ)) :=
  invertLoop original []

/-! ## Machine-integer facts -/

theorem wrapInt_of_isInt (x : Int) (h : IsInt x) : wrapInt x = x := by
  unfold IsInt minInt maxInt at h
  unfold wrapInt
  omega

theorem isInt_tdiv (a b : Int) (ha : IsInt a) (hb : b ≠ 0)
    (hov : ¬ (a = minInt ∧ b = -1)) : IsInt (Int.tdiv a b) := by
  unfold IsInt minInt maxInt at *
  by_cases h1 : b = 1
  · subst h1
    simpa using ha
  by_cases h2 : b = -1
  · subst h2
    have hne : a ≠ -9223372036854775808 := fun h => hov ⟨h, rfl⟩
    rw [Int.tdiv_neg, Int.tdiv_one]
    omega
  have hn : (Int.tdiv a b).natAbs = a.natAbs / b.natAbs := Int.natAbs_tdiv a b
  have hb2 : 2 ≤ b.natAbs := by omega
  have hle : a.natAbs / b.natAbs ≤ a.natAbs / 2 := Nat.div_le_div_left hb2 (by decide)
  omega

/-! ## The two topmost stack slots -/

theorem getElem_append_two_fst (rest : List Int) (a b : Int)
    (h : rest.length < (rest ++ [a, b]).length) :
    (rest ++ [a, b])[rest.length] = a := by
  rw [List.getElem_append_right (Nat.le_refl _)]
  simp

theorem getElem_append_two_snd (rest : List Int) (a b : Int)
    (h : rest.length + 1 < (rest ++ [a, b]).length) :
    (rest ++ [a, b])[rest.length + 1] = b := by
  rw [List.getElem_append_right (Nat.le_succ _)]
  simp

theorem take_append_two (rest : List Int) (a b : Int) :
    (rest ++ [a, b]).take (rest.length + 1) = rest ++ [a] := by
  rw [List.take_append_eq_append_take]
  simp

theorem set_append_one (rest : List Int) (a v : Int) :
    (rest ++ [a]).set rest.length v = rest ++ [v] := by
  rw [List.set_append_right _ _ (Nat.le_refl _)]
  simp

/-! ## One pass through the loop -/

theorem iteration_of_getElem? (program : List Int) (s : State) (cmd : Int)
    (h : program[s.index]? = some cmd) :
    iteration program s = some (exec program cmd { s with index := s.index + 1 }) := by
  obtain ⟨hlt, heq⟩ := List.getElem?_eq_some_iff.mp h
  simp [iteration, hlt, heq]

theorem iteration_of_length_le (program : List Int) (s : State)
    (h : program.length ≤ s.index) : iteration program s = none := by
  simp [iteration, Nat.not_lt.mpr h]

/-! ## Arithmetic instructions -/

/-- C1 (amended): for all `a` and `b`, the program `[Push, a, Push, b, Sub]` run
from the empty stack terminates normally with the single value `a - b` reduced
to the 64-bit two's-complement range (earlier-pushed minus later-pushed); on any
stack `rest ++ [a, b]`, Sub leaves `rest` untouched and replaces `a, b` by that
value; and the value is exactly `a - b` whenever `a - b` fits in an `int`. -/
theorem sub_operand_order (a b : Int) (rest program : List Int)
    (regs : Int → Option Int) (idx : Nat) (out : List Int) :
    run [CmdPush, a, CmdPush, b, CmdSub]
        = .finished ⟨[wrapInt (a - b)], init.registers, 5, []⟩
      ∧ exec program CmdSub ⟨rest ++ [a, b], regs, idx, out⟩
        = .ok ⟨rest ++ [wrapInt (a - b)], regs, idx, out⟩
      ∧ (IsInt (a - b) → wrapInt (a - b) = a - b) := by
  refine ⟨rfl, ?_, wrapInt_of_isInt _⟩
  simp [exec, getElem_append_two_fst, getElem_append_two_snd, take_append_two,
    set_append_one]

/-- C1 witness: `7 - 3` fits, and the value left by Sub is `7 - 3`. -/
theorem sub_operand_order_witness :
    IsInt ((7 : Int) - 3) ∧ wrapInt ((7 : Int) - 3) = 7 - 3 :=
  ⟨by decide, (sub_operand_order 7 3 [] [] init.registers 0 []).2.2 (by decide)⟩

/-- C1 counterexample: with `a` the least `int` and `b = 1` the run leaves the
greatest `int` on the stack, not `a - b`. -/
theorem sub_overflow_counterexample :
    run [CmdPush, -9223372036854775808, CmdPush, 1, CmdSub]
        = .finished ⟨[9223372036854775807], init.registers, 5, []⟩
      ∧ (run [CmdPush, -9223372036854775808, CmdPush, 1, CmdSub]).state.stack
        ≠ [(-9223372036854775808 : Int) - 1] :=
  ⟨rfl, by decide⟩

/-- C2 (amended): for all `v1` and `v2`, the program
`[Push, v1, Push, v2, Add, Print]` terminates normally, leaves exactly the sum
`v1 + v2` reduced to the 64-bit two's-complement range on the stack and prints
exactly that one value; the value is `v1 + v2` whenever the sum fits in an
`int`; for 33 and 44 the output is 77. -/
theorem add_print (v1 v2 : Int) :
    run [CmdPush, v1, CmdPush, v2, CmdAdd, CmdPrint]
        = .finished ⟨[wrapInt (v1 + v2)], init.registers, 6, [wrapInt (v1 + v2)]⟩
      ∧ (IsInt (v1 + v2) → wrapInt (v1 + v2) = v1 + v2)
      ∧ run [CmdPush, 33, CmdPush, 44, CmdAdd, CmdPrint]
        = .finished ⟨[77], init.registers, 6, [77]⟩ :=
  ⟨rfl, wrapInt_of_isInt _, rfl⟩

/-- C2 witness: `33 + 44` fits, and the value left by Add is `33 + 44`. -/
theorem add_print_witness :
    IsInt ((33 : Int) + 44) ∧ wrapInt ((33 : Int) + 44) = 33 + 44 :=
  ⟨by decide, (add_print 33 44).2.1 (by decide)⟩

/-- C2 counterexample: adding 1 to the greatest `int` prints the least `int`,
not the sum. -/
theorem add_overflow_counterexample :
    run [CmdPush, 9223372036854775807, CmdPush, 1, CmdAdd, CmdPrint]
        = .finished ⟨[-9223372036854775808], init.registers, 6, [-9223372036854775808]⟩
      ∧ (run [CmdPush, 9223372036854775807, CmdPush, 1, CmdAdd, CmdPrint]).state.output
        ≠ [(9223372036854775807 : Int) + 1] :=
  ⟨rfl, by decide⟩

/-- C3 (amended): for every `a` and every non-zero `b`, `[Push, a, Push, b, Div]`
leaves the single value `a / b` rounded toward zero and reduced to the 64-bit
two's-complement range; for every `int` `a` this is the quotient rounded toward
zero itself, except when `a` is the least `int` and `b = -1`, where the value
left is the least `int`; `-7, 2` and `7, -2` both give `-3`. -/
theorem div_truncates (a b : Int) (hb : b ≠ 0) :
    run [CmdPush, a, CmdPush, b, CmdDiv]
        = .finished ⟨[wrapInt (Int.tdiv a b)], init.registers, 5, []⟩
      ∧ (IsInt a → ¬ (a = minInt ∧ b = -1) → wrapInt (Int.tdiv a b) = Int.tdiv a b)
      ∧ (a = minInt → b = -1 → wrapInt (Int.tdiv a b) = minInt)
      ∧ run [CmdPush, -7, CmdPush, 2, CmdDiv] = .finished ⟨[-3], init.registers, 5, []⟩
      ∧ run [CmdPush, 7, CmdPush, -2, CmdDiv] = .finished ⟨[-3], init.registers, 5, []⟩ := by
  refine ⟨?_, ?_, ?_, rfl, rfl⟩
  · simp [run, loop, iteration, exec, init, hb]
  · intro ha hov
    exact wrapInt_of_isInt _ (isInt_tdiv a b ha hb hov)
  · intro ha hb1
    subst ha
    subst hb1
    decide

/-- C3 witness: `-7` divided by `2`. -/
theorem div_truncates_witness :
    (2 : Int) ≠ 0 ∧ IsInt (-7) ∧ ¬ ((-7 : Int) = minInt ∧ (2 : Int) = -1)
      ∧ wrapInt (Int.tdiv (-7) 2) = Int.tdiv (-7) 2 :=
  ⟨by decide, by decide, by decide,
    (div_truncates (-7) 2 (by decide)).2.1 (by decide) (by decide)⟩

/-- C3 counterexample: the least `int` divided by `-1` leaves the least `int`,
which is not the quotient rounded toward zero. -/
theorem div_overflow_counterexample :
    run [CmdPush, -9223372036854775808, CmdPush, -1, CmdDiv]
        = .finished ⟨[-9223372036854775808], init.registers, 5, []⟩
      ∧ (run [CmdPush, -9223372036854775808, CmdPush, -1, CmdDiv]).state.stack
        ≠ [Int.tdiv (-9223372036854775808) (-1)] :=
  ⟨rfl, by decide⟩

/-- C4: for every `a`, a program starting `[Push, a, Push, 0, Div]` panics with
the division-by-zero run-time error at the Div instruction (`index` stands just
past it), with only `a` on the stack and nothing printed, whatever instructions
follow; on any stack whose top is 0, Div panics likewise and stores no
quotient. -/
theorem div_by_zero_fatal (a : Int) (rest program stack : List Int)
    (regs : Int → Option Int) (idx : Nat) (out : List Int) :
    run ([CmdPush, a, CmdPush, 0, CmdDiv] ++ rest)
        = .panicked .divideByZero ⟨[a], init.registers, 5, []⟩
      ∧ run [CmdPush, 10, CmdPush, 0, CmdDiv]
        = .panicked .divideByZero ⟨[10], init.registers, 5, []⟩
      ∧ exec program CmdDiv ⟨stack ++ [a, 0], regs, idx, out⟩
        = .error (.divideByZero, ⟨stack ++ [a], regs, idx, out⟩)
      ∧ Failure.divideByZero.kind = .DivisionByZero := by
  refine ⟨?_, rfl, ?_, rfl⟩
  · simp [run, loop, iteration, exec, init]
  · simp [exec, getElem_append_two_snd, take_append_two]

/-! ## Fatal preconditions -/

/-- C5: in every state, an Add, Sub, Mul or Div decoded while the stack holds
fewer than two values, and a Pop or Print decoded while it is empty, makes the
loop panic with a failure of kind stack underflow and the stack, registers and
output untouched; `[Add]` run from the empty stack panics so, and so does
`[Push, v, Add]` for every `v`. -/
theorem stack_underflow_fatal (program : List Int) (s : State) (fuel : Nat) (cmd : Int)
    (hcmd : program[s.index]? = some cmd)
    (hu : ((cmd = CmdAdd ∨ cmd = CmdSub ∨ cmd = CmdMul ∨ cmd = CmdDiv)
            ∧ s.stack.length < 2)
          ∨ ((cmd = CmdPop ∨ cmd = CmdPrint) ∧ s.stack.length = 0)) :
    (∃ f, f.kind = .StackUnderflow
        ∧ loop program (fuel + 1) s = .panicked f { s with index := s.index + 1 })
      ∧ run [CmdAdd] = .panicked .notEnoughElements ⟨[], init.registers, 1, []⟩
      ∧ ∀ v, run [CmdPush, v, CmdAdd]
          = .panicked .notEnoughElements ⟨[v], init.registers, 3, []⟩ := by
  refine ⟨?_, rfl, fun v => rfl⟩
  have hit := iteration_of_getElem? program s cmd hcmd
  rcases hu with ⟨hc, hlen⟩ | ⟨hc, hlen⟩
  · refine ⟨.notEnoughElements, rfl, ?_⟩
    rcases hc with hc | hc | hc | hc <;> subst hc <;> simp [loop, hit, exec, hlen]
  · refine ⟨.stackEmpty, rfl, ?_⟩
    rcases hc with hc | hc <;> subst hc <;> simp [loop, hit, exec, hlen]

/-- C5 witness: Print decoded on the empty stack. -/
theorem stack_underflow_fatal_witness :
    ∃ f, f.kind = .StackUnderflow
      ∧ loop [CmdPrint] 1 init = .panicked f { init with index := init.index + 1 } :=
  (stack_underflow_fatal [CmdPrint] init 0 CmdPrint rfl
    (Or.inr ⟨Or.inr rfl, rfl⟩)).1

/-- C6: whenever a Push, Save or Load opcode is decoded at the last position of
the program, the loop panics with a failure of kind missing operand (the Push
message for Push, the register-name message for Save and Load), whatever the
stack and the register table hold; `[Push]`, `[Save]` and `[Load]` run from the
initial state (empty stack, no register) panic so. -/
theorem missing_operand_fatal (program : List Int) (s : State) (fuel : Nat) (cmd : Int)
    (hcmd : program[s.index]? = some cmd)
    (hlast : s.index + 1 = program.length)
    (hop : cmd = CmdPush ∨ cmd = CmdSave ∨ cmd = CmdLoad) :
    (∃ f, f.kind = .MissingOperand
        ∧ f = (if cmd = CmdPush then Failure.noPushValue else Failure.noRegisterName)
        ∧ loop program (fuel + 1) s = .panicked f { s with index := s.index + 1 })
      ∧ run [CmdPush] = .panicked .noPushValue ⟨[], init.registers, 1, []⟩
      ∧ run [CmdSave] = .panicked .noRegisterName ⟨[], init.registers, 1, []⟩
      ∧ run [CmdLoad] = .panicked .noRegisterName ⟨[], init.registers, 1, []⟩ := by
  refine ⟨?_, rfl, rfl, rfl⟩
  have hit := iteration_of_getElem? program s cmd hcmd
  have hge : program.length ≤ s.index + 1 := Nat.le_of_eq hlast.symm
  rcases hop with hc | hc | hc <;> subst hc
  · exact ⟨.noPushValue, rfl, rfl, by simp [loop, hit, exec, hge]⟩
  · exact ⟨.noRegisterName, rfl, rfl, by simp [loop, hit, exec, hge]⟩
  · exact ⟨.noRegisterName, rfl, rfl, by simp [loop, hit, exec, hge]⟩

/-- C6 witness: a Save at the last position, decoded with an empty stack. -/
theorem missing_operand_fatal_witness :
    ∃ f, f.kind = .MissingOperand
      ∧ f = (if CmdSave = CmdPush then Failure.noPushValue else Failure.noRegisterName)
      ∧ loop [CmdPop, CmdSave] 1 ⟨[], init.registers, 1, []⟩
        = .panicked f ⟨[], init.registers, 2, []⟩ :=
  (missing_operand_fatal [CmdPop, CmdSave] ⟨[], init.registers, 1, []⟩ 0 CmdSave rfl rfl
    (Or.inr (Or.inl rfl))).1

/-! ## Save and Load -/

/-- C8: on every non-empty stack `rest ++ [t]`, a Save `r` immediately followed
by a Load `r` succeeds in two passes of the loop and yields the stack
`rest ++ [t, t]`, with the register named by `r` holding `t`, every other
register as it was, nothing printed and `index` advanced by 4. -/
theorem save_then_load (program : List Int) (s : State) (rest : List Int) (t r : Int)
    (fuel : Nat)
    (hs : s.stack = rest ++ [t])
    (h0 : program[s.index]? = some CmdSave)
    (h1 : program[s.index + 1]? = some r)
    (h2 : program[s.index + 2]? = some CmdLoad)
    (h3 : program[s.index + 3]? = some r) :
    iteration program s
        = some (.ok ⟨rest ++ [t], setRegister s.registers (toRune r) t,
                     s.index + 2, s.output⟩)
      ∧ iteration program ⟨rest ++ [t], setRegister s.registers (toRune r) t,
                           s.index + 2, s.output⟩
        = some (.ok ⟨rest ++ [t, t], setRegister s.registers (toRune r) t,
                     s.index + 4, s.output⟩)
      ∧ setRegister s.registers (toRune r) t (toRune r) = some t
      ∧ (∀ k, k ≠ toRune r → setRegister s.registers (toRune r) t k = s.registers k)
      ∧ loop program (fuel + 2) s
        = loop program fuel ⟨rest ++ [t, t], setRegister s.registers (toRune r) t,
                             s.index + 4, s.output⟩ := by
  obtain ⟨stack, regs, idx, out⟩ := s
  simp only at hs h0 h1 h2 h3
  subst hs
  obtain ⟨hlt1, heq1⟩ := List.getElem?_eq_some_iff.mp h1
  obtain ⟨hlt3, heq3⟩ := List.getElem?_eq_some_iff.mp h3
  have e1 : iteration program ⟨rest ++ [t], regs, idx, out⟩
      = some (.ok ⟨rest ++ [t], setRegister regs (toRune r) t, idx + 2, out⟩) := by
    rw [iteration_of_getElem? program _ CmdSave h0]
    simp [exec, Nat.not_le.mpr hlt1, heq1]
  have e2 : iteration program ⟨rest ++ [t], setRegister regs (toRune r) t, idx + 2, out⟩
      = some (.ok ⟨rest ++ [t, t], setRegister regs (toRune r) t, idx + 4, out⟩) := by
    rw [iteration_of_getElem? program _ CmdLoad h2]
    simp [exec, Nat.not_le.mpr hlt3, heq3, setRegister]
  refine ⟨e1, e2, by simp [setRegister], ?_, ?_⟩
  · intro k hk
    simp [setRegister, hk]
  · simp only [loop, e1, e2]

/-- C8 witness: Save then Load of register 65 on the stack `[3, 9]`. -/
theorem save_then_load_witness :
    loop [CmdSave, 65, CmdLoad, 65] 2 ⟨[3, 9], init.registers, 0, []⟩
      = loop [CmdSave, 65, CmdLoad, 65] 0
          ⟨[3, 9, 9], setRegister init.registers (toRune 65) 9, 4, []⟩ :=
  (save_then_load [CmdSave, 65, CmdLoad, 65] ⟨[3, 9], init.registers, 0, []⟩ [3] 9 65 0
    rfl rfl rfl rfl rfl).2.2.2.2

/-! ## Case analysis of the switch -/

theorem cmd_cases (cmd : Int) :
    cmd = CmdAdd ∨ cmd = CmdSub ∨ cmd = CmdMul ∨ cmd = CmdDiv ∨ cmd = CmdPush
      ∨ cmd = CmdPop ∨ cmd = CmdPrint ∨ cmd = CmdSave ∨ cmd = CmdLoad
      ∨ (cmd ≠ CmdAdd ∧ cmd ≠ CmdSub ∧ cmd ≠ CmdMul ∧ cmd ≠ CmdDiv ∧ cmd ≠ CmdPush
          ∧ cmd ≠ CmdPop ∧ cmd ≠ CmdPrint ∧ cmd ≠ CmdSave ∧ cmd ≠ CmdLoad) := by
  unfold CmdAdd CmdSub CmdMul CmdDiv CmdPush CmdPop CmdPrint CmdSave CmdLoad
  omega

theorem exec_unknown (program : List Int) (cmd : Int) (s : State)
    (h : cmd ≠ CmdAdd ∧ cmd ≠ CmdSub ∧ cmd ≠ CmdMul ∧ cmd ≠ CmdDiv ∧ cmd ≠ CmdPush
          ∧ cmd ≠ CmdPop ∧ cmd ≠ CmdPrint ∧ cmd ≠ CmdSave ∧ cmd ≠ CmdLoad) :
    exec program cmd s = .ok s := by
  obtain ⟨h0, h1, h2, h3, h4, h5, h6, h7, h8⟩ := h
  simp [exec, h0, h1, h2, h3, h4, h5, h6, h7, h8]

theorem exec_ok_index (program : List Int) (cmd : Int) (s s' : State)
    (h : exec program cmd s = .ok s') :
    (s'.index = s.index ∨ (s'.index = s.index + 1 ∧ s.index < program.length)) := by
  rcases cmd_cases cmd with hc | hc | hc | hc | hc | hc | hc | hc | hc | hc
  case inr.inr.inr.inr.inr.inr.inr.inr.inr =>
    rw [exec_unknown program cmd s hc] at h
    cases h
    exact Or.inl rfl
  all_goals
    subst hc
    simp [exec] at h
    repeat' split at h
  all_goals
    cases h <;> first
      | exact Or.inl rfl
      | exact Or.inr ⟨rfl, by omega⟩

theorem exec_registers (program : List Int) (cmd : Int) (s s' : State)
    (h : exec program cmd s = .ok s') (k : Int) :
    ((s'.registers k).isSome ↔ (s.registers k).isSome
      ∨ (cmd = CmdSave ∧ ∃ x, program[s.index]? = some x ∧ toRune x = k)) := by
  rcases cmd_cases cmd with hc | hc | hc | hc | hc | hc | hc | hc | hc | hc
  case inr.inr.inr.inr.inr.inr.inr.inr.inr =>
    rw [exec_unknown program cmd s hc] at h
    cases h
    simp [hc.2.2.2.2.2.2.2.1]
  all_goals
    subst hc
    simp [exec] at h
    repeat' split at h
  all_goals
    cases h <;> try simp
  rename_i hlt _
  have hlt' : s.index < program.length := by omega
  rw [List.getElem?_eq_getElem hlt']
  by_cases hk : k = toRune program[s.index]
  · simp [setRegister, hk]
  · have hk' : ¬ toRune program[s.index] = k := fun e => hk e.symm
    simp [setRegister, hk, hk']

theorem iteration_ok (program : List Int) (s s' : State)
    (h : iteration program s = some (.ok s')) :
    ∃ cmd, program[s.index]? = some cmd
      ∧ exec program cmd { s with index := s.index + 1 } = .ok s' := by
  unfold iteration at h
  split at h
  · rename_i hlt
    exact ⟨program[s.index], List.getElem?_eq_getElem hlt, by simpa using h⟩
  · cases h

theorem iteration_ok_index (program : List Int) (s s' : State)
    (h : iteration program s = some (.ok s')) :
    s.index < program.length ∧ s.index + 1 ≤ s'.index ∧ s'.index ≤ s.index + 2
      ∧ s'.index ≤ program.length := by
  obtain ⟨cmd, hcmd, hex⟩ := iteration_ok program s s' h
  obtain ⟨hlt, -⟩ := List.getElem?_eq_some_iff.mp hcmd
  have := exec_ok_index program cmd _ s' hex
  simp only at this
  omega

/-! ## Runs as sequences of passes -/

theorem passes_succ_last (program : List Int) (n : Nat) (s s' : State) :
    passes program (n + 1) s = some s'
      ↔ ∃ s0, passes program n s = some s0 ∧ iteration program s0 = some (.ok s') := by
  induction n generalizing s with
  | zero =>
    simp only [passes]
    constructor
    · intro h
      refine ⟨s, rfl, ?_⟩
      split at h
      · rename_i s1 heq
        cases h
        exact heq
      · cases h
    · rintro ⟨s0, h0, h1⟩
      cases h0
      simp [h1]
  | succ n ih =>
    constructor
    · intro h
      rw [passes] at h
      split at h
      · rename_i s1 heq
        obtain ⟨s0, h0, h1⟩ := (ih s1).mp h
        refine ⟨s0, ?_, h1⟩
        rw [passes, heq]
        exact h0
      · cases h
    · rintro ⟨s0, h0, h1⟩
      rw [passes] at h0
      split at h0
      · rename_i s1 heq
        rw [passes, heq]
        exact (ih s1).mpr ⟨s0, h0, h1⟩
      · cases h0

theorem passes_index (program : List Int) (n : Nat) (s s' : State)
    (h : passes program n s = some s') : s.index + n ≤ s'.index := by
  induction n generalizing s with
  | zero =>
    simp only [passes] at h
    cases h
    exact Nat.le_refl _
  | succ n ih =>
    rw [passes] at h
    split at h
    · rename_i s1 heq
      have h1 := iteration_ok_index program s s1 heq
      have h2 := ih s1 h
      omega
    · cases h

theorem loop_passes (program : List Int) (n fuel : Nat) (s s' : State)
    (h : passes program n s = some s') :
    loop program (n + fuel) s = loop program fuel s' := by
  induction n generalizing s with
  | zero =>
    simp only [passes] at h
    cases h
    simp
  | succ n ih =>
    rw [passes] at h
    split at h
    · rename_i s1 heq
      have e : n + 1 + fuel = (n + fuel) + 1 := by omega
      rw [e, loop, heq]
      exact ih s1 h
    · cases h

/-! ## Which registers exist -/

theorem iteration_registers (program : List Int) (s s' : State)
    (h : iteration program s = some (.ok s')) (k : Int) :
    ((s'.registers k).isSome ↔ (s.registers k).isSome
      ∨ (program[s.index]? = some CmdSave
          ∧ ∃ x, program[s.index + 1]? = some x ∧ toRune x = k)) := by
  obtain ⟨cmd, hcmd, hex⟩ := iteration_ok program s s' h
  rw [exec_registers program cmd _ s' hex k, hcmd]
  simp

theorem registers_isSome_iff (program : List Int) (n : Nat) (s : State)
    (h : stateAfter program n = some s) (k : Int) :
    ((s.registers k).isSome
      ↔ ∃ j y, j < n ∧ saveDecodedAt program j y = true ∧ toRune y = k) := by
  induction n generalizing s with
  | zero =>
    simp only [stateAfter, passes] at h
    cases h
    simp [init]
  | succ n ih =>
    obtain ⟨s0, h0, h1⟩ := (passes_succ_last program n init s).mp h
    have h0' : stateAfter program n = some s0 := h0
    rw [iteration_registers program s0 s h1 k, ih s0 h0']
    constructor
    · rintro (⟨j, y, hj, hsave, hy⟩ | ⟨hc, x, hx, hk⟩)
      · exact ⟨j, y, by omega, hsave, hy⟩
      · exact ⟨n, x, by omega, by simp [saveDecodedAt, h0', hc, hx], hk⟩
    · rintro ⟨j, y, hj, hsave, hy⟩
      by_cases hjn : j < n
      · exact Or.inl ⟨j, y, hjn, hsave, hy⟩
      · have hjn' : j = n := by omega
        subst hjn'
        simp [saveDecodedAt, h0'] at hsave
        exact Or.inr ⟨hsave.1, y, hsave.2, hy⟩

/-- C7: the register identifier of a Save or a Load is its operand converted to
`rune` (`reg := rune(program[index])`).  For every program and every register
identifier `r`, here the identifier `rune(x)` of a Load with operand `x` decoded
at pass `n` of the run: when no earlier pass of the run decoded a Save with
identifier `r`, the run panics with the register-not-found message, a failure of
kind unknown register, with the stack as it was (nothing is pushed); conversely,
when some earlier pass decoded a Save with identifier `r`, the Load does not
fail and pushes the value the register holds. -/
theorem load_unknown_register (program : List Int) (n : Nat) (s : State) (x : Int)
    (hs : stateAfter program n = some s)
    (hload : program[s.index]? = some CmdLoad)
    (hx : program[s.index + 1]? = some x) :
    ((∀ j y, j < n → saveDecodedAt program j y = true → toRune y ≠ toRune x)
        → run program = .panicked .registerNotFound { s with index := s.index + 2 }
          ∧ Failure.registerNotFound.kind = .UnknownRegister)
      ∧ ((∃ j y, j < n ∧ saveDecodedAt program j y = true ∧ toRune y = toRune x)
        → ∃ val, s.registers (toRune x) = some val
            ∧ iteration program s
              = some (.ok { s with index := s.index + 2, stack := s.stack ++ [val] })) := by
  have hinv := registers_isSome_iff program n s hs (toRune x)
  have hit := iteration_of_getElem? program s CmdLoad hload
  obtain ⟨hlt1, heq1⟩ := List.getElem?_eq_some_iff.mp hx
  obtain ⟨hlt0, -⟩ := List.getElem?_eq_some_iff.mp hload
  constructor
  · intro hno
    refine ⟨?_, rfl⟩
    have hnone : s.registers (toRune x) = none := by
      cases hr : s.registers (toRune x) with
      | none => rfl
      | some v =>
        have : (s.registers (toRune x)).isSome := by simp [hr]
        obtain ⟨j, y, hj, hsave, hy⟩ := hinv.mp this
        exact absurd hy (hno j y hj hsave)
    have hidx := passes_index program n init s hs
    simp only [init] at hidx
    obtain ⟨m, hm⟩ : ∃ m, program.length = n + (m + 1) := ⟨program.length - n - 1, by omega⟩
    rw [run, hm, loop_passes program n (m + 1) init s hs, loop, hit]
    simp [exec, Nat.not_le.mpr hlt1, heq1, hnone]
  · intro hyes
    have hsome := hinv.mpr hyes
    obtain ⟨val, hval⟩ := Option.isSome_iff_exists.mp hsome
    refine ⟨val, hval, ?_⟩
    rw [hit]
    simp [exec, Nat.not_le.mpr hlt1, heq1, hval]

/-- C7 witness: `[Push, 1, Load, 65]` loads a register no Save has written. -/
theorem load_unknown_register_witness :
    run [CmdPush, 1, CmdLoad, 65]
        = .panicked .registerNotFound ⟨[1], init.registers, 4, []⟩
      ∧ Failure.registerNotFound.kind = .UnknownRegister :=
  (load_unknown_register [CmdPush, 1, CmdLoad, 65] 1 ⟨[1], init.registers, 2, []⟩ 65
    rfl rfl rfl).1
    (fun j y hj hsave => by
      obtain rfl : j = 0 := by omega
      simp [saveDecodedAt, stateAfter, passes, init] at hsave)

/-! ## Moving the program counter -/

theorem exec_cons (c : Int) (q : List Int) (cmd : Int) (s : State) :
    exec (c :: q) cmd (s.addIndex 1) = mapResult (State.addIndex 1) (exec q cmd s) := by
  rcases cmd_cases cmd with hc | hc | hc | hc | hc | hc | hc | hc | hc | hc
  case inr.inr.inr.inr.inr.inr.inr.inr.inr =>
    rw [exec_unknown _ cmd _ hc, exec_unknown _ cmd _ hc]
    rfl
  all_goals
    subst hc
    simp [exec, State.addIndex]
    repeat' split
  all_goals first | rfl | simp_all [mapResult, State.addIndex]

theorem iteration_cons (c : Int) (q : List Int) (s : State) :
    iteration (c :: q) (s.addIndex 1)
      = (iteration q s).map (mapResult (State.addIndex 1)) := by
  unfold iteration
  by_cases h : s.index < q.length
  · have h' : (s.addIndex 1).index < (c :: q).length := by
      simp [State.addIndex, h]
    rw [dif_pos h, dif_pos h']
    simp only [Option.map_some']
    have e : (c :: q)[(s.addIndex 1).index] = q[s.index] := by
      simp [State.addIndex]
    rw [e]
    exact congrArg some (exec_cons c q q[s.index] { s with index := s.index + 1 })
  · have h' : ¬ (s.addIndex 1).index < (c :: q).length := by
      simp [State.addIndex]
      omega
    rw [dif_neg h, dif_neg h']
    rfl

theorem loop_cons (c : Int) (q : List Int) (fuel : Nat) (s : State) :
    loop (c :: q) fuel (s.addIndex 1) = (loop q fuel s).mapState (State.addIndex 1) := by
  induction fuel generalizing s with
  | zero =>
    simp only [loop]
    by_cases h : s.index < q.length
    · have h' : (s.addIndex 1).index < (c :: q).length := by
        simp [State.addIndex, h]
      rw [if_pos h, if_pos h']
      rfl
    · have h' : ¬ (s.addIndex 1).index < (c :: q).length := by
        simp [State.addIndex]
        omega
      rw [if_neg h, if_neg h']
      rfl
  | succ fuel ih =>
    rw [loop, loop, iteration_cons]
    cases hit : iteration q s with
    | none => rfl
    | some r =>
      cases r with
      | error e => rfl
      | ok s' => exact ih s'

theorem eraseIndex_mapState_addIndex (n : Nat) (o : Outcome) :
    (o.mapState (State.addIndex n)).eraseIndex = o.eraseIndex := by
  cases o <;> rfl

/-! ## Instruction boundaries -/

theorem isBoundary_rec (motive : List Int → Nat → Prop)
    (zero : ∀ p, motive p 0)
    (one : ∀ c q j, hasOperand c = false → isBoundary q j = true → motive q j
      → motive (c :: q) (j + 1))
    (two : ∀ c x q j, hasOperand c = true → isBoundary q j = true → motive q j
      → motive (c :: x :: q) (j + 2))
    (p : List Int) (i : Nat) (h : isBoundary p i = true) : motive p i := by
  induction p, i using isBoundary.induct with
  | case1 p => exact zero p
  | case2 i => simp [isBoundary] at h
  | case3 c =>
    simp [isBoundary] at h
    exact one c [] 0 h rfl (zero [])
  | case4 c i => simp [isBoundary] at h
  | case5 c x p =>
    simp [isBoundary] at h
    exact one c (x :: p) 0 h (by simp [isBoundary]) (zero _)
  | case6 c x p i hc ih =>
    simp [isBoundary, hc] at h
    exact two c x p i hc h (ih h)
  | case7 c x p i hc ih =>
    simp [isBoundary, hc] at h
    have hc' : hasOperand c = false := by simpa using hc
    exact one c (x :: p) (i + 1) hc' h (ih h)

/-! ## Iteration budget -/

theorem loop_fuel (program : List Int) (fuel extra : Nat) (s : State)
    (h : program.length ≤ s.index + fuel) :
    loop program (fuel + extra) s = loop program fuel s := by
  induction fuel generalizing s with
  | zero =>
    have hle : program.length ≤ s.index := by omega
    have hnone := iteration_of_length_le program s hle
    cases extra with
    | zero => rfl
    | succ e =>
      have e0 : 0 + (e + 1) = e + 1 := by omega
      rw [e0]
      simp [loop, hnone, Nat.not_lt.mpr hle]
  | succ fuel ih =>
    have e0 : fuel + 1 + extra = (fuel + extra) + 1 := by omega
    rw [e0, loop, loop]
    cases hit : iteration program s with
    | none => rfl
    | some r =>
      cases r with
      | error e => rfl
      | ok s' =>
        have := iteration_ok_index program s s' hit
        exact ih s' (by omega)

theorem loop_ne_outOfFuel (program : List Int) (fuel : Nat) (s s' : State)
    (h : program.length ≤ s.index + fuel) : loop program fuel s ≠ .outOfFuel s' := by
  induction fuel generalizing s with
  | zero =>
    have hle : program.length ≤ s.index := by omega
    simp [loop, Nat.not_lt.mpr hle]
  | succ fuel ih =>
    rw [loop]
    cases hit : iteration program s with
    | none => simp
    | some r =>
      cases r with
      | error e => simp
      | ok s1 =>
        have := iteration_ok_index program s s1 hit
        exact ih s1 (by omega)

theorem run_ne_outOfFuel (program : List Int) (s' : State) :
    run program ≠ .outOfFuel s' :=
  loop_ne_outOfFuel program program.length init s' (by simp [init])

/-! ## The first instruction of a program -/

theorem hasOperand_false_iff (c : Int) :
    hasOperand c = false ↔ c ≠ CmdPush ∧ c ≠ CmdSave ∧ c ≠ CmdLoad := by
  simp [hasOperand, and_assoc]

theorem hasOperand_true_iff (c : Int) :
    hasOperand c = true ↔ c = CmdPush ∨ c = CmdSave ∨ c = CmdLoad := by
  simp [hasOperand, or_assoc]

theorem exec_noOperand (q : List Int) (c : Int) (s : State) (hc : hasOperand c = false) :
    exec q c s = exec [] c s := by
  obtain ⟨h4, h7, h8⟩ := (hasOperand_false_iff c).mp hc
  simp [exec, h4, h7, h8]

theorem exec_nil_index (c : Int) (s s' : State)
    (h : exec [] c s = .ok s') : s'.index = s.index := by
  have := exec_ok_index [] c s s' h
  simpa using this

theorem exec_operand_head (x : Int) (q : List Int) (c : Int) (s : State)
    (hc : hasOperand c = true) (hs : s.index = 0) :
    exec (x :: q) c s = exec [x] c s := by
  rcases (hasOperand_true_iff c).mp hc with h | h | h <;> subst h <;> simp [exec, hs]

theorem exec_operand_index (x : Int) (c : Int) (s s' : State)
    (hc : hasOperand c = true) (hs : s.index = 0)
    (h : exec [x] c s = .ok s') : s'.index = 1 := by
  rcases (hasOperand_true_iff c).mp hc with hc | hc | hc
  all_goals
    subst hc
    simp [exec, hs] at h
    repeat' split at h
  all_goals
    cases h <;> simp [hs]

theorem head_noOperand (c : Int) (q : List Int) (fuel : Nat) (s : State)
    (hc : hasOperand c = false) (hs : s.index = 0) :
    (loop (c :: q) (fuel + 1) s).eraseIndex
      = match exec [] c s with
        | .error e => (Outcome.panicked e.1 e.2).eraseIndex
        | .ok s' => (loop q fuel s').eraseIndex := by
  obtain ⟨stk, regs, idx, out⟩ := s
  simp only at hs
  subst hs
  have hit : iteration (c :: q) ⟨stk, regs, 0, out⟩
      = some (mapResult (State.addIndex 1) (exec [] c ⟨stk, regs, 0, out⟩)) := by
    rw [← exec_noOperand q c _ hc, ← exec_cons c q c ⟨stk, regs, 0, out⟩]
    simp [iteration, State.addIndex]
  rw [loop, hit]
  cases hex : exec [] c ⟨stk, regs, 0, out⟩ with
  | error e => rfl
  | ok s' =>
    simp only [mapResult]
    rw [loop_cons, eraseIndex_mapState_addIndex]

theorem head_operand (c x : Int) (q : List Int) (fuel : Nat) (s : State)
    (hc : hasOperand c = true) (hs : s.index = 0) :
    (loop (c :: x :: q) (fuel + 1) s).eraseIndex
      = match exec [x] c s with
        | .error e => (Outcome.panicked e.1 e.2).eraseIndex
        | .ok s' => (loop q fuel { s' with index := 0 }).eraseIndex := by
  obtain ⟨stk, regs, idx, out⟩ := s
  simp only at hs
  subst hs
  have hit : iteration (c :: x :: q) ⟨stk, regs, 0, out⟩
      = some (mapResult (State.addIndex 1) (exec [x] c ⟨stk, regs, 0, out⟩)) := by
    rw [← exec_operand_head x q c _ hc rfl, ← exec_cons c (x :: q) c ⟨stk, regs, 0, out⟩]
    simp [iteration, State.addIndex]
  rw [loop, hit]
  cases hex : exec [x] c ⟨stk, regs, 0, out⟩ with
  | error e => rfl
  | ok s' =>
    have hidx := exec_operand_index x c _ s' hc rfl hex
    have e : State.addIndex 1 s'
        = State.addIndex 1 (State.addIndex 1 { s' with index := 0 }) := by
      obtain ⟨stk', regs', idx', out'⟩ := s'
      simp only at hidx
      subst hidx
      rfl
    simp only [mapResult]
    rw [e, loop_cons, loop_cons, eraseIndex_mapState_addIndex, eraseIndex_mapState_addIndex]

/-! ## Unknown opcodes -/

theorem unknown_of_range (v : Int) (hv : v < 0 ∨ 8 < v) :
    v ≠ CmdAdd ∧ v ≠ CmdSub ∧ v ≠ CmdMul ∧ v ≠ CmdDiv ∧ v ≠ CmdPush
      ∧ v ≠ CmdPop ∧ v ≠ CmdPrint ∧ v ≠ CmdSave ∧ v ≠ CmdLoad := by
  unfold CmdAdd CmdSub CmdMul CmdDiv CmdPush CmdPop CmdPrint CmdSave CmdLoad
  omega

theorem insertAt_zero (p : List Int) (v : Int) : insertAt p 0 v = v :: p := by
  simp [insertAt]

theorem insertAt_cons_succ (c : Int) (q : List Int) (j : Nat) (v : Int) :
    insertAt (c :: q) (j + 1) v = c :: insertAt q j v := by
  simp [insertAt]

theorem removeAt_cons_zero (c : Int) (q : List Int) : removeAt (c :: q) 0 = q := by
  simp [removeAt]

theorem removeAt_cons_succ (c : Int) (q : List Int) (j : Nat) :
    removeAt (c :: q) (j + 1) = c :: removeAt q j := by
  simp [removeAt]

theorem loop_insert_unknown (v : Int) (hv : v < 0 ∨ 8 < v) (p : List Int) (i : Nat)
    (h : isBoundary p i = true) :
    ∀ s : State, s.index = 0 →
      (loop (insertAt p i v) (insertAt p i v).length s).eraseIndex
        = (loop p p.length s).eraseIndex := by
  have hun := unknown_of_range v hv
  refine isBoundary_rec
    (fun p i => ∀ s : State, s.index = 0 →
      (loop (insertAt p i v) (insertAt p i v).length s).eraseIndex
        = (loop p p.length s).eraseIndex) ?_ ?_ ?_ p i h
  · intro p s hs
    have hc : hasOperand v = false :=
      (hasOperand_false_iff v).mpr ⟨hun.2.2.2.2.1, hun.2.2.2.2.2.2.2.1, hun.2.2.2.2.2.2.2.2⟩
    rw [insertAt_zero, List.length_cons, head_noOperand v p p.length s hc hs,
      exec_unknown [] v s hun]
  · intro c q j hc _ ih s hs
    rw [insertAt_cons_succ, List.length_cons, List.length_cons,
      head_noOperand c _ _ s hc hs, head_noOperand c q _ s hc hs]
    cases hex : exec [] c s with
    | error e => rfl
    | ok s' => exact ih s' ((exec_nil_index c s s' hex).trans hs)
  · intro c x q j hc _ ih s hs
    rw [insertAt_cons_succ, insertAt_cons_succ, List.length_cons, List.length_cons,
      List.length_cons, List.length_cons,
      head_operand c x _ _ s hc hs, head_operand c x q _ s hc hs]
    cases hex : exec [x] c s with
    | error e => rfl
    | ok s' =>
      simp only
      rw [loop_fuel _ _ 1 _ (Nat.le_add_left _ _), loop_fuel _ _ 1 _ (Nat.le_add_left _ _)]
      exact ih _ rfl

/-- C9: for every `v` outside 0..8 (every negative integer included) and every
state, a pass of the loop that decodes `v` does not fail, leaves the stack, the
register table and the output unchanged and advances `index` by exactly 1; and
inserting such a `v` at any instruction boundary of a program changes neither
how the run ends (normally, or with which failure) nor the stack, registers and
output it ends with. -/
theorem unknown_opcode_noop (v : Int) (hv : v < 0 ∨ 8 < v) (program : List Int)
    (s : State) (i : Nat) :
    (program[s.index]? = some v
        → iteration program s = some (.ok { s with index := s.index + 1 }))
      ∧ (isBoundary program i = true
        → (run (insertAt program i v)).eraseIndex = (run program).eraseIndex) := by
  constructor
  · intro h
    rw [iteration_of_getElem? program s v h, exec_unknown _ v _ (unknown_of_range v hv)]
  · intro h
    exact loop_insert_unknown v hv program i h init rfl

/-- C9 witness: `-1` inserted before the Print of `[Push, 5, Print]`. -/
theorem unknown_opcode_noop_witness :
    (run (insertAt [CmdPush, 5, CmdPrint] 2 (-1))).eraseIndex
      = (run [CmdPush, 5, CmdPrint]).eraseIndex :=
  (unknown_opcode_noop (-1) (Or.inl (by decide)) [CmdPush, 5, CmdPrint] init 2).2 rfl

/-! ## Output is write-only -/

theorem exec_prependOutput (program : List Int) (cmd : Int) (o : List Int) (s : State) :
    exec program cmd (s.prependOutput o)
      = mapResult (State.prependOutput o) (exec program cmd s) := by
  rcases cmd_cases cmd with hc | hc | hc | hc | hc | hc | hc | hc | hc | hc
  case inr.inr.inr.inr.inr.inr.inr.inr.inr =>
    rw [exec_unknown _ cmd _ hc, exec_unknown _ cmd _ hc]
    rfl
  all_goals
    subst hc
    simp [exec, State.prependOutput]
    repeat' split
  all_goals first | rfl | simp_all [mapResult, State.prependOutput]

theorem iteration_prependOutput (program : List Int) (o : List Int) (s : State) :
    iteration program (s.prependOutput o)
      = (iteration program s).map (mapResult (State.prependOutput o)) := by
  unfold iteration
  by_cases h : s.index < program.length
  · have h' : (s.prependOutput o).index < program.length := h
    rw [dif_pos h, dif_pos h']
    simp only [Option.map_some']
    exact congrArg some
      (exec_prependOutput program program[s.index] o { s with index := s.index + 1 })
  · have h' : ¬ (s.prependOutput o).index < program.length := h
    rw [dif_neg h, dif_neg h']
    rfl

theorem loop_prependOutput (program : List Int) (fuel : Nat) (o : List Int) (s : State) :
    loop program fuel (s.prependOutput o)
      = (loop program fuel s).mapState (State.prependOutput o) := by
  induction fuel generalizing s with
  | zero =>
    simp only [loop]
    by_cases h : s.index < program.length
    · have h' : (s.prependOutput o).index < program.length := h
      rw [if_pos h, if_pos h']
      rfl
    · have h' : ¬ (s.prependOutput o).index < program.length := h
      rw [if_neg h, if_neg h']
      rfl
  | succ fuel ih =>
    rw [loop, loop, iteration_prependOutput]
    cases hit : iteration program s with
    | none => rfl
    | some r =>
      cases r with
      | error e => rfl
      | ok s' => exact ih s'

/-! ## Removing a Print -/

theorem loop_remove_print_head (q : List Int) (s sf : State) (hs : s.index = 0)
    (h : (loop (CmdPrint :: q) (q.length + 1) s).eraseIndex = .finished sf) :
    ∃ sf', (loop q q.length s).eraseIndex = .finished sf' ∧ LessOneLine sf sf' := by
  obtain ⟨stk, regs, idx, out⟩ := s
  simp only at hs
  subst hs
  rw [head_noOperand CmdPrint q q.length _ (by decide) rfl] at h
  by_cases hlen : stk.length = 0
  · simp [exec, hlen, Outcome.eraseIndex, Outcome.mapState] at h
  · have hex : exec [] CmdPrint ⟨stk, regs, 0, out⟩
        = .ok ⟨stk, regs, 0, out ++ [stk[stk.length - 1]]⟩ := by
      simp [exec, hlen]
    rw [hex] at h
    simp only at h
    have e1 : (⟨stk, regs, 0, out ++ [stk[stk.length - 1]]⟩ : State)
        = State.prependOutput (out ++ [stk[stk.length - 1]]) ⟨stk, regs, 0, []⟩ := by
      simp [State.prependOutput]
    have e2 : (⟨stk, regs, 0, out⟩ : State)
        = State.prependOutput out ⟨stk, regs, 0, []⟩ := by
      simp [State.prependOutput]
    rw [e1, loop_prependOutput] at h
    rw [e2, loop_prependOutput]
    cases hl : loop q q.length ⟨stk, regs, 0, []⟩ with
    | finished f0 =>
      rw [hl] at h
      simp only [Outcome.eraseIndex, Outcome.mapState, State.prependOutput,
        Outcome.finished.injEq] at h ⊢
      subst h
      exact ⟨_, rfl, rfl, rfl, out, stk[stk.length - 1], f0.output, by simp, rfl⟩
    | panicked e f0 =>
      rw [hl] at h
      simp [Outcome.eraseIndex, Outcome.mapState] at h
    | outOfFuel f0 =>
      rw [hl] at h
      simp [Outcome.eraseIndex, Outcome.mapState] at h

theorem loop_remove_print (p : List Int) (i : Nat) (h : isBoundary p i = true) :
    p[i]? = some CmdPrint → ∀ s sf : State, s.index = 0 →
      (loop p p.length s).eraseIndex = .finished sf →
      ∃ sf', (loop (removeAt p i) (removeAt p i).length s).eraseIndex = .finished sf'
        ∧ LessOneLine sf sf' := by
  refine isBoundary_rec
    (fun p i => p[i]? = some CmdPrint → ∀ s sf : State, s.index = 0 →
      (loop p p.length s).eraseIndex = .finished sf →
      ∃ sf', (loop (removeAt p i) (removeAt p i).length s).eraseIndex = .finished sf'
        ∧ LessOneLine sf sf') ?_ ?_ ?_ p i h
  · intro p hp s sf hs hfin
    cases p with
    | nil => simp at hp
    | cons c q =>
      simp only [List.getElem?_cons_zero, Option.some.injEq] at hp
      subst hp
      rw [removeAt_cons_zero]
      exact loop_remove_print_head q s sf hs hfin
  · intro c q j hc _ ih hp s sf hs hfin
    simp only [List.getElem?_cons_succ] at hp
    rw [List.length_cons, head_noOperand c q _ s hc hs] at hfin
    rw [removeAt_cons_succ, List.length_cons, head_noOperand c _ _ s hc hs]
    cases hex : exec [] c s with
    | error e =>
      rw [hex] at hfin
      simp [Outcome.eraseIndex, Outcome.mapState] at hfin
    | ok s' =>
      rw [hex] at hfin
      exact ih hp s' sf ((exec_nil_index c s s' hex).trans hs) hfin
  · intro c x q j hc _ ih hp s sf hs hfin
    simp only [List.getElem?_cons_succ] at hp
    rw [List.length_cons, List.length_cons, head_operand c x q _ s hc hs] at hfin
    rw [removeAt_cons_succ, removeAt_cons_succ, List.length_cons, List.length_cons,
      head_operand c x _ _ s hc hs]
    cases hex : exec [x] c s with
    | error e =>
      rw [hex] at hfin
      simp [Outcome.eraseIndex, Outcome.mapState] at hfin
    | ok s' =>
      rw [hex] at hfin
      simp only at hfin ⊢
      rw [loop_fuel _ _ 1 _ (Nat.le_add_left _ _)] at hfin
      rw [loop_fuel _ _ 1 _ (Nat.le_add_left _ _)]
      exact ih hp _ sf rfl hfin

/-- C10: on every non-empty stack `rest ++ [t]`, a pass of the loop that decodes
Print leaves the stack and the register table as they were and appends exactly
one output line, the top `t`; `[Push, 5, Print, Push, 5, Add, Print]` prints 5
and then 10; and when a program finishes normally, the program with any one of
its Print instructions removed also finishes normally, with the same final
stack and registers and the same output less one line. -/
theorem print_frame (program : List Int) (s : State) (rest : List Int) (t : Int)
    (hs : s.stack = rest ++ [t]) (hcmd : program[s.index]? = some CmdPrint) :
    iteration program s
        = some (.ok { s with index := s.index + 1, output := s.output ++ [t] })
      ∧ run [CmdPush, 5, CmdPrint, CmdPush, 5, CmdAdd, CmdPrint]
        = .finished ⟨[10], init.registers, 7, [5, 10]⟩
      ∧ ∀ (p : List Int) (i : Nat) (sf : State),
          isBoundary p i = true → p[i]? = some CmdPrint → run p = .finished sf →
          ∃ sf', run (removeAt p i) = .finished sf' ∧ LessOneLine sf sf' := by
  refine ⟨?_, rfl, ?_⟩
  · obtain ⟨stk, regs, idx, out⟩ := s
    simp only at hs hcmd
    subst hs
    rw [iteration_of_getElem? program _ CmdPrint hcmd]
    simp [exec]
  · intro p i sf hb hp hfin
    have hfin' : (loop p p.length init).eraseIndex = .finished { sf with index := 0 } := by
      have : loop p p.length init = .finished sf := hfin
      rw [this]
      rfl
    obtain ⟨sf', h1, h2⟩ := loop_remove_print p i hb hp init _ rfl hfin'
    cases hr : run (removeAt p i) with
    | finished f =>
      have hr' : loop (removeAt p i) (removeAt p i).length init = .finished f := hr
      rw [hr'] at h1
      simp only [Outcome.eraseIndex, Outcome.mapState, Outcome.finished.injEq] at h1
      subst h1
      exact ⟨f, rfl, h2⟩
    | panicked e f =>
      have hr' : loop (removeAt p i) (removeAt p i).length init = .panicked e f := hr
      rw [hr'] at h1
      simp [Outcome.eraseIndex, Outcome.mapState] at h1
    | outOfFuel f =>
      have hr' : loop (removeAt p i) (removeAt p i).length init = .outOfFuel f := hr
      rw [hr'] at h1
      simp [Outcome.eraseIndex, Outcome.mapState] at h1

/-- C10 witness: Print on the stack `[5]`, and the first Print removed from
`[Push, 5, Print, Push, 5, Add, Print]`. -/
theorem print_frame_witness :
    iteration [CmdPush, 5, CmdPrint] ⟨[5], init.registers, 2, []⟩
        = some (.ok ⟨[5], init.registers, 3, [5]⟩)
      ∧ ∃ sf', run (removeAt [CmdPush, 5, CmdPrint, CmdPush, 5, CmdAdd, CmdPrint] 2)
            = .finished sf'
          ∧ LessOneLine ⟨[10], init.registers, 7, [5, 10]⟩ sf' :=
  ⟨(print_frame [CmdPush, 5, CmdPrint] ⟨[5], init.registers, 2, []⟩ [] 5 rfl rfl).1,
    (print_frame [CmdPush, 5, CmdPrint] ⟨[5], init.registers, 2, []⟩ [] 5 rfl rfl).2.2
      [CmdPush, 5, CmdPrint, CmdPush, 5, CmdAdd, CmdPrint] 2
      ⟨[10], init.registers, 7, [5, 10]⟩ rfl rfl rfl⟩

/-! ## Composed arithmetic -/

theorem wrapInt_mul_left (x c : Int) : wrapInt (wrapInt x * c) = wrapInt (x * c) := by
  unfold wrapInt
  have h : (x + 9223372036854775808) % 18446744073709551616
      = x + 9223372036854775808
        - 18446744073709551616 * ((x + 9223372036854775808) / 18446744073709551616) := by
    have := Int.emod_add_ediv (x + 9223372036854775808) 18446744073709551616
    omega
  rw [h]
  have e : (x + 9223372036854775808
        - 18446744073709551616 * ((x + 9223372036854775808) / 18446744073709551616)
        - 9223372036854775808) * c + 9223372036854775808
      = (x * c + 9223372036854775808)
        + 18446744073709551616 * (-(((x + 9223372036854775808) / 18446744073709551616) * c)) := by
    ring
  rw [e, Int.add_mul_emod_self_left]

/-- C11 (amended): for all `a`, `b` and `c`, the program
`[Push, a, Push, b, Sub, Push, c, Mul, Print]` terminates normally and prints
exactly one line, `(a - b) * c` reduced to the 64-bit two's-complement range,
which is also the single value left on the stack; the line is exactly
`(a - b) * c` whenever that product fits in an `int`; for 7, 3 and 2 the output
is 8. -/
theorem sub_mul_print (a b c : Int) :
    run [CmdPush, a, CmdPush, b, CmdSub, CmdPush, c, CmdMul, CmdPrint]
        = .finished ⟨[wrapInt ((a - b) * c)], init.registers, 9, [wrapInt ((a - b) * c)]⟩
      ∧ (IsInt ((a - b) * c) → wrapInt ((a - b) * c) = (a - b) * c)
      ∧ run [CmdPush, 7, CmdPush, 3, CmdSub, CmdPush, 2, CmdMul, CmdPrint]
        = .finished ⟨[8], init.registers, 9, [8]⟩ := by
  refine ⟨?_, wrapInt_of_isInt _, rfl⟩
  rw [← wrapInt_mul_left]
  rfl

/-- C11 witness: `(7 - 3) * 2` fits, and the printed value is `(7 - 3) * 2`. -/
theorem sub_mul_print_witness :
    IsInt (((7 : Int) - 3) * 2) ∧ wrapInt (((7 : Int) - 3) * 2) = (7 - 3) * 2 :=
  ⟨by decide, (sub_mul_print 7 3 2).2.1 (by decide)⟩

/-- C11 counterexample: for `a = 4611686018427387904`, `b = 0` and `c = 2` the
program prints the least `int`, not `(a - b) * c`. -/
theorem sub_mul_overflow_counterexample :
    run [CmdPush, 4611686018427387904, CmdPush, 0, CmdSub, CmdPush, 2, CmdMul, CmdPrint]
        = .finished ⟨[-9223372036854775808], init.registers, 9, [-9223372036854775808]⟩
      ∧ (run [CmdPush, 4611686018427387904, CmdPush, 0, CmdSub, CmdPush, 2, CmdMul,
            CmdPrint]).state.output
        ≠ [((4611686018427387904 : Int) - 0) * 2] :=
  ⟨rfl, by decide⟩

/-! ## The program of `main` -/

/-- C18: the program hard-coded in `main` (50 elements, 33 instructions) runs to
completion without any panic, prints exactly the three lines 84084, 504504 and
578 in that order, and ends with the stack `[504504, 578]` and exactly two
registers, 1040 (Cyrillic A) holding 84084 and 1041 (Cyrillic Be) holding
504504. -/
theorem main_run :
    run mainProgram
        = .finished ⟨[504504, 578],
            setRegister (setRegister init.registers 1040 84084) 1041 504504,
            50, [84084, 504504, 578]⟩
      ∧ mainProgram.length = 50
      ∧ (run mainProgram).state.registers 1040 = some 84084
      ∧ (run mainProgram).state.registers 1041 = some 504504
      ∧ (∀ k, k ≠ 1040 → k ≠ 1041 → (run mainProgram).state.registers k = none)
      ∧ stateAfter mainProgram 33 = some (run mainProgram).state
      ∧ printedBefore mainProgram 33 = [84084, 504504, 578] := by
  refine ⟨rfl, rfl, rfl, rfl, ?_, rfl, by decide⟩
  intro k h1 h2
  have e : (run mainProgram).state.registers
      = setRegister (setRegister init.registers 1040 84084) 1041 504504 := rfl
  rw [e]
  simp [setRegister, init, h1, h2]

/-- C18 witness: register 65 does not exist at the end of the run of `main`. -/
theorem main_run_witness : (run mainProgram).state.registers 65 = none :=
  main_run.2.2.2.2.1 65 (by decide) (by decide)

/-! ## Register keys are runes -/

theorem toRune_congr (r r' : Int) (h : r % 4294967296 = r' % 4294967296) :
    toRune r = toRune r' := by
  unfold toRune
  omega

/-- C20: with a 64-bit `int`, Save and Load key the register table by their
operand converted to `rune`, so for all operands `r` and `r'` congruent modulo
2^32 the two name the same register: a Load `r'` decoded after a pass that
decoded Save `r` does not fail and pushes what that register holds, and a Save
`r'` writes the very register a Save `r` writes, overwriting its value; for
`r = 65` and `r' = 65 + 2^32` the runs shown finish normally. -/
theorem register_key_truncated (r r' : Int) (hcong : r % 4294967296 = r' % 4294967296) :
    toRune r = toRune r'
      ∧ (∀ (program : List Int) (n : Nat) (s : State),
          stateAfter program n = some s →
          program[s.index]? = some CmdLoad → program[s.index + 1]? = some r' →
          (∃ j, j < n ∧ saveDecodedAt program j r = true) →
          ∃ val, s.registers (toRune r) = some val
            ∧ iteration program s
              = some (.ok { s with index := s.index + 2, stack := s.stack ++ [val] }))
      ∧ (∀ (program : List Int) (s : State) (rest : List Int) (t : Int),
          s.stack = rest ++ [t] →
          program[s.index]? = some CmdSave → program[s.index + 1]? = some r' →
          iteration program s
            = some (.ok { s with index := s.index + 2,
                                 registers := setRegister s.registers (toRune r) t }))
      ∧ (∀ (regs : Int → Option Int) (t t' : Int),
          setRegister (setRegister regs (toRune r) t) (toRune r') t'
            = setRegister regs (toRune r) t')
      ∧ run [CmdPush, 7, CmdSave, 65, CmdPop, CmdLoad, 4294967361]
        = .finished ⟨[7], setRegister init.registers 65 7, 7, []⟩
      ∧ run [CmdPush, 1, CmdSave, 65, CmdPush, 2, CmdSave, 4294967361, CmdPop, CmdLoad, 65]
        = .finished ⟨[1, 2], setRegister init.registers 65 2, 11, []⟩ := by
  have hr := toRune_congr r r' hcong
  refine ⟨hr, ?_, ?_, ?_, rfl, ?_⟩
  · intro program n s hs hload hx ⟨j, hj, hsave⟩
    have hinv := registers_isSome_iff program n s hs (toRune r)
    have hsome := hinv.mpr ⟨j, r, hj, hsave, rfl⟩
    obtain ⟨val, hval⟩ := Option.isSome_iff_exists.mp hsome
    obtain ⟨hlt1, heq1⟩ := List.getElem?_eq_some_iff.mp hx
    refine ⟨val, hval, ?_⟩
    rw [iteration_of_getElem? program s CmdLoad hload]
    simp [exec, Nat.not_le.mpr hlt1, heq1, ← hr, hval]
  · intro program s rest t hs h0 h1
    obtain ⟨stk, regs, idx, out⟩ := s
    simp only at hs h0 h1
    subst hs
    obtain ⟨hlt1, heq1⟩ := List.getElem?_eq_some_iff.mp h1
    rw [iteration_of_getElem? program _ CmdSave h0]
    simp [exec, Nat.not_le.mpr hlt1, heq1, ← hr]
  · intro regs t t'
    funext k
    by_cases hk : k = toRune r <;> simp [setRegister, ← hr, hk]
  · have e : setRegister init.registers 65 2
        = setRegister (setRegister init.registers 65 1) 65 2 := by
      funext k
      by_cases hk : k = 65 <;> simp [setRegister, hk]
    rw [e]
    rfl

/-- C20 witness: 65 and 65 + 2^32 convert to the same `rune`. -/
theorem register_key_truncated_witness :
    toRune 65 = toRune 4294967361 :=
  (register_key_truncated 65 4294967361 (by decide)).1

/-! ## What one pass changes -/

theorem exec_ok_index_exact (program : List Int) (cmd : Int) (s s' : State)
    (h : exec program cmd s = .ok s') :
    s'.index = s.index + (if hasOperand cmd = true then 1 else 0)
      ∧ (hasOperand cmd = true → s.index < program.length) := by
  rcases cmd_cases cmd with hc | hc | hc | hc | hc | hc | hc | hc | hc | hc
  case inr.inr.inr.inr.inr.inr.inr.inr.inr =>
    rw [exec_unknown program cmd s hc] at h
    cases h
    have hop : hasOperand cmd = false :=
      (hasOperand_false_iff cmd).mpr ⟨hc.2.2.2.2.1, hc.2.2.2.2.2.2.2.1, hc.2.2.2.2.2.2.2.2⟩
    simp [hop]
  all_goals
    subst hc
    simp [exec] at h
    repeat' split at h
  all_goals
    cases h <;> simp [hasOperand] <;> omega

theorem exec_error_frame (program : List Int) (cmd : Int) (s sp : State) (f : Failure)
    (h : exec program cmd s = .error (f, sp)) :
    sp.registers = s.registers ∧ sp.output = s.output
      ∧ (sp.index = s.index ∨ (sp.index = s.index + 1 ∧ s.index < program.length)) := by
  rcases cmd_cases cmd with hc | hc | hc | hc | hc | hc | hc | hc | hc | hc
  case inr.inr.inr.inr.inr.inr.inr.inr.inr =>
    rw [exec_unknown program cmd s hc] at h
    cases h
  all_goals
    subst hc
    simp [exec] at h
    repeat' split at h
  all_goals
    cases h <;> first
      | exact ⟨rfl, rfl, Or.inl rfl⟩
      | exact ⟨rfl, rfl, Or.inr ⟨rfl, by omega⟩⟩

theorem getLast?_of_ne_nil (l : List Int) (h : l.length - 1 < l.length) :
    l.getLast? = some l[l.length - 1] := by
  rw [List.getLast?_eq_getElem?, List.getElem?_eq_getElem h]

theorem exec_ok_registers (program : List Int) (cmd : Int) (s s' : State)
    (h : exec program cmd s = .ok s') :
    (cmd ≠ CmdSave → s'.registers = s.registers)
      ∧ (cmd = CmdSave → ∃ r t, program[s.index]? = some r ∧ s.stack.getLast? = some t
          ∧ s'.registers = setRegister s.registers (toRune r) t) := by
  rcases cmd_cases cmd with hc | hc | hc | hc | hc | hc | hc | hc | hc | hc
  case inr.inr.inr.inr.inr.inr.inr.inr.inr =>
    rw [exec_unknown program cmd s hc] at h
    cases h
    exact ⟨fun _ => rfl, fun e => absurd e hc.2.2.2.2.2.2.2.1⟩
  all_goals
    subst hc
    simp [exec] at h
    repeat' split at h
  all_goals
    cases h <;> try simp
  rename_i hlt hne
  have hlt' : s.index < program.length := by omega
  have hpos : s.stack.length - 1 < s.stack.length := by
    have : s.stack.length ≠ 0 := fun e => hne (List.length_eq_zero.mp e)
    omega
  exact ⟨program[s.index], List.getElem?_eq_getElem hlt', s.stack[s.stack.length - 1],
    getLast?_of_ne_nil s.stack hpos, rfl⟩

theorem exec_ok_output (program : List Int) (cmd : Int) (s s' : State)
    (h : exec program cmd s = .ok s') :
    s'.output = s.output ++ (if cmd = CmdPrint then s.stack.getLast?.toList else []) := by
  rcases cmd_cases cmd with hc | hc | hc | hc | hc | hc | hc | hc | hc | hc
  case inr.inr.inr.inr.inr.inr.inr.inr.inr =>
    rw [exec_unknown program cmd s hc] at h
    cases h
    simp [hc.2.2.2.2.2.2.1]
  all_goals
    subst hc
    simp [exec] at h
    repeat' split at h
  all_goals
    cases h <;> try simp
  rename_i hne
  have hpos : s.stack.length - 1 < s.stack.length := by
    have : s.stack.length ≠ 0 := fun e => hne (List.length_eq_zero.mp e)
    omega
  rw [getLast?_of_ne_nil s.stack hpos]
  rfl

/-! ## Termination -/

theorem iteration_error (program : List Int) (s sp : State) (f : Failure)
    (h : iteration program s = some (.error (f, sp))) :
    ∃ cmd, program[s.index]? = some cmd
      ∧ exec program cmd { s with index := s.index + 1 } = .error (f, sp) := by
  unfold iteration at h
  split at h
  · rename_i hlt
    exact ⟨program[s.index], List.getElem?_eq_getElem hlt, by simpa using h⟩
  · cases h

theorem iteration_none_iff (program : List Int) (s : State) :
    iteration program s = none ↔ program.length ≤ s.index := by
  unfold iteration
  split <;> simp <;> omega

theorem stateAfter_index (program : List Int) (n : Nat) (s : State)
    (h : stateAfter program n = some s) : n ≤ s.index ∧ s.index ≤ program.length := by
  have h1 := passes_index program n init s h
  simp only [init] at h1
  refine ⟨by omega, ?_⟩
  cases n with
  | zero =>
    simp only [stateAfter, passes] at h
    cases h
    simp [init]
  | succ n =>
    obtain ⟨s0, -, hit⟩ := (passes_succ_last program n init s).mp h
    exact (iteration_ok_index program s0 s hit).2.2.2

theorem loop_finished_index (program : List Int) (fuel : Nat) (s sf : State)
    (h : loop program fuel s = .finished sf) : program.length ≤ sf.index := by
  induction fuel generalizing s with
  | zero =>
    simp only [loop] at h
    split at h
    · cases h
    · cases h
      omega
  | succ fuel ih =>
    rw [loop] at h
    cases hit : iteration program s with
    | none =>
      rw [hit] at h
      cases h
      exact (iteration_none_iff program _).mp hit
    | some r =>
      rw [hit] at h
      cases r with
      | error e => cases h
      | ok s1 => exact ih s1 h

theorem loop_reaches (program : List Int) (fuel : Nat) (s : State) (o : Outcome)
    (h : loop program fuel s = o) :
    ∃ n s1, n ≤ fuel ∧ passes program n s = some s1
      ∧ ((o = .finished s1 ∧ iteration program s1 = none)
        ∨ (∃ f sp, o = .panicked f sp ∧ iteration program s1 = some (.error (f, sp)))
        ∨ (o = .outOfFuel s1)) := by
  induction fuel generalizing s with
  | zero =>
    simp only [loop] at h
    refine ⟨0, s, Nat.le_refl _, rfl, ?_⟩
    split at h
    · exact Or.inr (Or.inr h.symm)
    · rename_i hlt
      exact Or.inl ⟨h.symm, (iteration_none_iff program s).mpr (by omega)⟩
  | succ fuel ih =>
    rw [loop] at h
    cases hit : iteration program s with
    | none =>
      rw [hit] at h
      exact ⟨0, s, Nat.zero_le _, rfl, Or.inl ⟨h.symm, hit⟩⟩
    | some r =>
      rw [hit] at h
      cases r with
      | error e =>
        obtain ⟨f, sp⟩ := e
        exact ⟨0, s, Nat.zero_le _, rfl, Or.inr (Or.inl ⟨f, sp, h.symm, hit⟩)⟩
      | ok s1 =>
        obtain ⟨n, s2, hn, hp, hcase⟩ := ih s1 h
        refine ⟨n + 1, s2, by omega, ?_, hcase⟩
        rw [passes, hit]
        exact hp

theorem loop_of_length_le (program : List Int) (fuel : Nat) (s : State)
    (h : program.length ≤ s.index) : loop program fuel s = .finished s := by
  cases fuel with
  | zero => simp [loop, Nat.not_lt.mpr h]
  | succ m => simp [loop, (iteration_none_iff program s).mpr h]

/-- C13: the loop terminates on every program.  A pass that does not panic moves
`index` forward by exactly 1 (Add, Sub, Mul, Div, Pop, Print, unknown opcode) or
exactly 2 (Push, Save, Load); a pass reads an opcode only while
`index < len(program)` and an operand only at an index inside the program;
`index` never exceeds the program length, neither along the run nor in the
state a panic leaves; the state after `n` passes has `index` at least `n`, so a
program of `n` elements makes at most `n` passes; the run always ends, either
normally with `index` equal to the program length or with a panic; and it ends
normally in a state of the run exactly when that state has `index` equal to the
program length. -/
theorem loop_terminates (program : List Int) :
    (∀ (s s' : State) (cmd : Int),
        program[s.index]? = some cmd → iteration program s = some (.ok s') →
        s'.index = s.index + (if hasOperand cmd = true then 2 else 1)
          ∧ s'.index ≤ program.length
          ∧ (hasOperand cmd = true → s.index + 1 < program.length))
      ∧ (∀ s : State, iteration program s ≠ none ↔ s.index < program.length)
      ∧ (∀ (n : Nat) (s : State), stateAfter program n = some s →
          n ≤ s.index ∧ s.index ≤ program.length
            ∧ (iteration program s ≠ none → n + 1 ≤ program.length))
      ∧ ((∃ s, run program = .finished s ∧ s.index = program.length)
          ∨ (∃ f s, run program = .panicked f s ∧ s.index ≤ program.length))
      ∧ (∀ (n : Nat) (s : State), stateAfter program n = some s →
          (run program = .finished s ↔ s.index = program.length)) := by
  have hnone : ∀ s : State, iteration program s ≠ none ↔ s.index < program.length := by
    intro s
    rw [Ne, iteration_none_iff]
    omega
  refine ⟨?_, hnone, ?_, ?_, ?_⟩
  · intro s s' cmd hcmd hit
    have hit' := hit
    rw [iteration_of_getElem? program s cmd hcmd] at hit'
    have hex : exec program cmd { s with index := s.index + 1 } = .ok s' := by
      simpa using hit'
    obtain ⟨h1, h2⟩ := exec_ok_index_exact program cmd _ s' hex
    have h3 := (iteration_ok_index program s s' hit).2.2.2
    simp only at h1 h2
    refine ⟨?_, h3, h2⟩
    by_cases hop : hasOperand cmd = true
    · simp only [hop, if_true] at h1 ⊢
      omega
    · simp only [hop] at h1 ⊢
      simpa using h1
  · intro n s hs
    obtain ⟨h1, h2⟩ := stateAfter_index program n s hs
    refine ⟨h1, h2, fun hne => ?_⟩
    have := (hnone s).mp hne
    omega
  · obtain ⟨n, s1, -, hp, hcase⟩ := loop_reaches program program.length init _ rfl
    have hs1 : stateAfter program n = some s1 := hp
    obtain ⟨-, hle⟩ := stateAfter_index program n s1 hs1
    rcases hcase with ⟨ho, hit⟩ | ⟨f, sp, ho, hit⟩ | ho
    · exact Or.inl ⟨s1, ho, Nat.le_antisymm hle ((iteration_none_iff program s1).mp hit)⟩
    · refine Or.inr ⟨f, sp, ho, ?_⟩
      obtain ⟨cmd, hcmd, hex⟩ := iteration_error program s1 sp f hit
      obtain ⟨hlt, -⟩ := List.getElem?_eq_some_iff.mp hcmd
      obtain ⟨-, -, hidx⟩ := exec_error_frame program cmd _ sp f hex
      simp only at hidx
      omega
    · exact absurd ho (run_ne_outOfFuel program s1)
  · intro n s hs
    obtain ⟨hn, hle⟩ := stateAfter_index program n s hs
    constructor
    · intro hfin
      exact Nat.le_antisymm hle (loop_finished_index program program.length init s hfin)
    · intro heq
      obtain ⟨m, hm⟩ : ∃ m, program.length = n + m := ⟨program.length - n, by omega⟩
      rw [run, hm, loop_passes program n m init s hs]
      exact loop_of_length_le program m s (by omega)

/-- C13 witness: the run of `[Push, 5, Print]` after one pass and at its end. -/
theorem loop_terminates_witness :
    (1 ≤ 2 ∧ 2 ≤ [CmdPush, 5, CmdPrint].length
      ∧ (iteration [CmdPush, 5, CmdPrint] ⟨[5], init.registers, 2, []⟩ ≠ none
          → 1 + 1 ≤ [CmdPush, 5, CmdPrint].length))
      ∧ (run [CmdPush, 5, CmdPrint] = .finished ⟨[5], init.registers, 3, [5]⟩
          ↔ 3 = [CmdPush, 5, CmdPrint].length) :=
  ⟨(loop_terminates [CmdPush, 5, CmdPrint]).2.2.1 1 ⟨[5], init.registers, 2, []⟩ rfl,
    (loop_terminates [CmdPush, 5, CmdPrint]).2.2.2.2 2 ⟨[5], init.registers, 3, [5]⟩ rfl⟩

/-! ## The register table only grows -/

theorem stateAfter_mono_registers (program : List Int) (n d : Nat) (sn sm : State)
    (hn : stateAfter program n = some sn) (hm : stateAfter program (n + d) = some sm)
    (k : Int) (hk : (sn.registers k).isSome = true) : (sm.registers k).isSome = true := by
  induction d generalizing sm with
  | zero =>
    rw [Nat.add_zero, hn] at hm
    cases hm
    exact hk
  | succ d ih =>
    obtain ⟨s0, h0, hit⟩ := (passes_succ_last program (n + d) init sm).mp hm
    exact (iteration_registers program s0 sm hit k).mpr (Or.inl (ih s0 h0))

/-- C14: the register table never shrinks.  In every pass of the loop every
register present before the pass is present after it; a pass that does not
decode a Save leaves the table as it was, and so does a pass that panics; a
Save with operand `r` sets the register named by `r` to the current top of the
stack and leaves every other register unchanged; hence along a run a register
present after `n` passes is present after any later pass. -/
theorem registers_never_shrink (program : List Int) (s : State) :
    (∀ s' : State, iteration program s = some (.ok s') →
        (∀ k, (s.registers k).isSome = true → (s'.registers k).isSome = true)
          ∧ (program[s.index]? ≠ some CmdSave → s'.registers = s.registers)
          ∧ (program[s.index]? = some CmdSave →
              ∃ r t, program[s.index + 1]? = some r ∧ s.stack.getLast? = some t
                ∧ s'.registers = setRegister s.registers (toRune r) t
                ∧ s'.registers (toRune r) = some t
                ∧ ∀ k, k ≠ toRune r → s'.registers k = s.registers k))
      ∧ (∀ (f : Failure) (sp : State), iteration program s = some (.error (f, sp)) →
          sp.registers = s.registers)
      ∧ (∀ (n d : Nat) (sn sm : State),
          stateAfter program n = some sn → stateAfter program (n + d) = some sm →
          ∀ k, (sn.registers k).isSome = true → (sm.registers k).isSome = true) := by
  refine ⟨?_, ?_, ?_⟩
  · intro s' hit
    obtain ⟨cmd, hcmd, hex⟩ := iteration_ok program s s' hit
    obtain ⟨hne, hsave⟩ := exec_ok_registers program cmd _ s' hex
    simp only at hsave
    refine ⟨?_, ?_, ?_⟩
    · intro k hk
      exact (iteration_registers program s s' hit k).mpr (Or.inl hk)
    · intro hns
      exact hne (fun e => hns (by rw [hcmd, e]))
    · intro hs
      have hc : cmd = CmdSave := by
        rw [hcmd] at hs
        exact Option.some.inj hs
      obtain ⟨r, t, hr, ht, hregs⟩ := hsave hc
      refine ⟨r, t, hr, ht, hregs, ?_, ?_⟩
      · rw [hregs]
        simp [setRegister]
      · intro k hk
        rw [hregs]
        simp [setRegister, hk]
  · intro f sp hit
    obtain ⟨cmd, -, hex⟩ := iteration_error program s sp f hit
    exact (exec_error_frame program cmd _ sp f hex).1
  · intro n d sn sm hn hm k hk
    exact stateAfter_mono_registers program n d sn sm hn hm k hk

/-- C14 witness: the Save of `[Push, 5, Save, 65]`. -/
theorem registers_never_shrink_witness :
    ∃ r t, [CmdPush, 5, CmdSave, 65][2 + 1]? = some r
      ∧ ([5] : List Int).getLast? = some t
      ∧ setRegister init.registers 65 5 = setRegister init.registers (toRune r) t
      ∧ setRegister init.registers 65 5 (toRune r) = some t
      ∧ ∀ k, k ≠ toRune r → setRegister init.registers 65 5 k = init.registers k :=
  ((registers_never_shrink [CmdPush, 5, CmdSave, 65] ⟨[5], init.registers, 2, []⟩).1
    ⟨[5], setRegister init.registers 65 5, 4, []⟩ rfl).2.2 rfl

/-! ## Output of a failing run -/

theorem iteration_output (program : List Int) (s s' : State)
    (h : iteration program s = some (.ok s')) :
    s'.output = s.output
      ++ (if program[s.index]? = some CmdPrint then s.stack.getLast?.toList else []) := by
  obtain ⟨cmd, hcmd, hex⟩ := iteration_ok program s s' h
  have := exec_ok_output program cmd _ s' hex
  simp only at this
  rw [this, hcmd]
  simp

theorem printedBefore_succ (program : List Int) (n : Nat) :
    printedBefore program (n + 1)
      = printedBefore program n ++ (printedAt program n).toList := by
  unfold printedBefore
  rw [List.range_succ, List.filterMap_append]
  cases h : printedAt program n <;> simp [List.filterMap, h]

theorem stateAfter_output (program : List Int) (n : Nat) (s : State)
    (h : stateAfter program n = some s) : s.output = printedBefore program n := by
  induction n generalizing s with
  | zero =>
    simp only [stateAfter, passes] at h
    cases h
    rfl
  | succ n ih =>
    obtain ⟨s0, h0, hit⟩ := (passes_succ_last program n init s).mp h
    have h0' : stateAfter program n = some s0 := h0
    rw [iteration_output program s0 s hit, ih s0 h0', printedBefore_succ]
    congr 1
    simp only [printedAt, h0']
    split <;> rfl

theorem stateAfter_none_of_lt (program : List Int) (n d : Nat)
    (h : stateAfter program n = none) : stateAfter program (n + d) = none := by
  induction d with
  | zero => exact h
  | succ d ih =>
    cases hs : stateAfter program (n + d + 1) with
    | none => exact hs
    | some s =>
      obtain ⟨s0, h0, -⟩ := (passes_succ_last program (n + d) init s).mp hs
      have h0' : stateAfter program (n + d) = some s0 := h0
      rw [ih] at h0'
      cases h0'

/-- C12: when the run of a program panics, it does so in one pass, the pass
after some `n` completed passes; the output at the panic is the output before
that pass, which is the list of the stack tops printed by the Print passes among
the first `n`, in program order; no pass follows the failing one; and the
failure and final variables of the run are the ones of that pass and no
other. -/
theorem output_before_failure (program : List Int) (f : Failure) (sp : State)
    (h : run program = .panicked f sp) :
    ∃ n s, stateAfter program n = some s
      ∧ iteration program s = some (.error (f, sp))
      ∧ sp.output = s.output
      ∧ sp.output = printedBefore program n
      ∧ (∀ m, n < m → stateAfter program m = none)
      ∧ (∀ f' sp', run program = .panicked f' sp' → f' = f ∧ sp' = sp) := by
  obtain ⟨n, s1, -, hp, hcase⟩ := loop_reaches program program.length init _ h
  have hs1 : stateAfter program n = some s1 := hp
  rcases hcase with ⟨ho, -⟩ | ⟨f', sp', ho, hit⟩ | ho
  · cases ho
  · cases ho
    obtain ⟨cmd, -, hex⟩ := iteration_error program s1 sp f hit
    have hout := (exec_error_frame program cmd _ sp f hex).2.1
    simp only at hout
    refine ⟨n, s1, hs1, hit, hout, ?_, ?_, ?_⟩
    · rw [hout]
      exact stateAfter_output program n s1 hs1
    · intro m hm
      obtain ⟨d, hd⟩ : ∃ d, m = n + 1 + d := ⟨m - n - 1, by omega⟩
      rw [hd]
      apply stateAfter_none_of_lt
      cases hs : stateAfter program (n + 1) with
      | none => rfl
      | some s2 =>
        obtain ⟨s0, h0, hit2⟩ := (passes_succ_last program n init s2).mp hs
        have h0' : stateAfter program n = some s0 := h0
        rw [hs1] at h0'
        cases h0'
        rw [hit] at hit2
        cases hit2
    · intro f2 sp2 h2
      rw [h] at h2
      cases h2
      exact ⟨rfl, rfl⟩
  · cases ho

/-- C12 witness: `[Push, 5, Print, Add, Print]` prints 5 and then panics at
Add. -/
theorem output_before_failure_witness :
    ∃ n s, stateAfter [CmdPush, 5, CmdPrint, CmdAdd, CmdPrint] n = some s
      ∧ iteration [CmdPush, 5, CmdPrint, CmdAdd, CmdPrint] s
        = some (.error (.notEnoughElements, ⟨[5], init.registers, 4, [5]⟩))
      ∧ ([5] : List Int) = s.output
      ∧ ([5] : List Int) = printedBefore [CmdPush, 5, CmdPrint, CmdAdd, CmdPrint] n
      ∧ (∀ m, n < m → stateAfter [CmdPush, 5, CmdPrint, CmdAdd, CmdPrint] m = none)
      ∧ (∀ f' sp', run [CmdPush, 5, CmdPrint, CmdAdd, CmdPrint] = .panicked f' sp'
          → f' = .notEnoughElements ∧ sp' = ⟨[5], init.registers, 4, [5]⟩) :=
  output_before_failure [CmdPush, 5, CmdPrint, CmdAdd, CmdPrint] .notEnoughElements
    ⟨[5], init.registers, 4, [5]⟩ rfl

/-! ## Go maps -/

section MapLemmas

variable {κ ν : Type} [DecidableEq κ]

theorem mapLookup_mapAssign (m : List (κ × ν)) (k k' : κ) (v : ν) :
    mapLookup (mapAssign m k v) k' = if k = k' then some v else mapLookup m k' := by
  induction m with
  | nil => simp [mapAssign, mapLookup]
  | cons e m ih =>
    obtain ⟨k0, v0⟩ := e
    by_cases h0 : k0 = k
    · subst h0
      by_cases h1 : k0 = k' <;> simp [mapAssign, mapLookup, h1]
    · by_cases h1 : k0 = k'
      · subst h1
        simp [mapAssign, mapLookup, h0, Ne.symm h0]
      · simp [mapAssign, mapLookup, h0, h1, ih]

theorem mapLookup_eq_none_iff (m : List (κ × ν)) (k : κ) :
    mapLookup m k = none ↔ k ∉ m.map Prod.fst := by
  induction m with
  | nil => simp [mapLookup]
  | cons e m ih =>
    obtain ⟨k0, v0⟩ := e
    by_cases h0 : k0 = k
    · simp [mapLookup, h0]
    · simp [mapLookup, h0, ih, Ne.symm h0]

theorem mapLookup_eq_some_iff (m : List (κ × ν)) (hm : (m.map Prod.fst).Nodup)
    (k : κ) (v : ν) : mapLookup m k = some v ↔ (k, v) ∈ m := by
  induction m with
  | nil => simp [mapLookup]
  | cons e m ih =>
    obtain ⟨k0, v0⟩ := e
    simp only [List.map_cons, List.nodup_cons] at hm
    obtain ⟨hnot, hnd⟩ := hm
    by_cases h0 : k0 = k
    · subst h0
      simp only [mapLookup, if_true, Option.some.injEq, List.mem_cons, Prod.mk.injEq,
        true_and]
      constructor
      · intro h
        exact Or.inl h.symm
      · rintro (h | h)
        · exact h.symm
        · exact absurd (List.mem_map_of_mem Prod.fst h) hnot
    · simp [mapLookup, h0, ih hnd, Ne.symm h0]

theorem mem_keys_mapAssign (m : List (κ × ν)) (k k' : κ) (v : ν) :
    k' ∈ (mapAssign m k v).map Prod.fst ↔ k' = k ∨ k' ∈ m.map Prod.fst := by
  have h1 := mapLookup_eq_none_iff (mapAssign m k v) k'
  have h2 := mapLookup_eq_none_iff m k'
  rw [mapLookup_mapAssign] at h1
  by_cases hk : k = k'
  · subst hk
    simp only [if_true] at h1
    constructor
    · intro _
      exact Or.inl rfl
    · intro _
      by_contra hc
      exact absurd (h1.mpr hc) (by simp)
  · simp only [hk, if_false] at h1
    constructor
    · intro h
      by_contra hc
      have : k' ∉ m.map Prod.fst := fun e => hc (Or.inr e)
      exact (h1.mp (h2.mpr this)) h
    · rintro (h | h)
      · exact absurd h.symm hk
      · by_contra hc
        exact (h2.mp (h1.mpr hc)) h

theorem keys_mapAssign_nodup (m : List (κ × ν)) (hm : (m.map Prod.fst).Nodup)
    (k : κ) (v : ν) : ((mapAssign m k v).map Prod.fst).Nodup := by
  induction m with
  | nil => simp [mapAssign]
  | cons e m ih =>
    obtain ⟨k0, v0⟩ := e
    simp only [List.map_cons, List.nodup_cons] at hm
    obtain ⟨hnot, hnd⟩ := hm
    by_cases h0 : k0 = k
    · subst h0
      simp only [mapAssign, if_true, List.map_cons, List.nodup_cons]
      exact ⟨hnot, hnd⟩
    · simp only [mapAssign, h0, if_false, List.map_cons, List.nodup_cons]
      refine ⟨?_, ih hnd⟩
      rw [mem_keys_mapAssign]
      rintro (h | h)
      · exact h0 h
      · exact hnot h

theorem mapLookup_foldl (m r0 : List (κ × ν)) (hm : (m.map Prod.fst).Nodup) (k : κ) :
    mapLookup (m.foldl (fun result e => mapAssign result e.1 e.2) r0) k
      = match mapLookup m k with
        | some v => some v
        | none => mapLookup r0 k := by
  induction m generalizing r0 with
  | nil => simp [mapLookup]
  | cons e m ih =>
    obtain ⟨k0, v0⟩ := e
    simp only [List.map_cons, List.nodup_cons] at hm
    obtain ⟨hnot, hnd⟩ := hm
    rw [List.foldl_cons, ih _ hnd]
    by_cases h0 : k0 = k
    · subst h0
      have hnone := (mapLookup_eq_none_iff m k0).mpr hnot
      simp [mapLookup, hnone, mapLookup_mapAssign]
    · simp only [mapLookup, h0, if_false, mapLookup_mapAssign]

theorem keys_foldl_nodup (m r0 : List (κ × ν)) (hr : (r0.map Prod.fst).Nodup) :
    ((m.foldl (fun result e => mapAssign result e.1 e.2) r0).map Prod.fst).Nodup := by
  induction m generalizing r0 with
  | nil => exact hr
  | cons e m ih =>
    rw [List.foldl_cons]
    exact ih _ (keys_mapAssign_nodup r0 hr e.1 e.2)

theorem mem_keys_foldl (m r0 : List (κ × ν)) (k : κ) :
    k ∈ (m.foldl (fun result e => mapAssign result e.1 e.2) r0).map Prod.fst
      ↔ k ∈ r0.map Prod.fst ∨ k ∈ m.map Prod.fst := by
  induction m generalizing r0 with
  | nil => simp
  | cons e m ih =>
    rw [List.foldl_cons, ih, mem_keys_mapAssign]
    simp only [List.map_cons, List.mem_cons]
    constructor
    · rintro ((h | h) | h)
      · exact Or.inr (Or.inl h)
      · exact Or.inl h
      · exact Or.inr (Or.inr h)
    · rintro (h | h | h)
      · exact Or.inl (Or.inr h)
      · exact Or.inl (Or.inl h)
      · exact Or.inr h

theorem mapLookup_perm (m m' : List (κ × ν)) (hm : (m.map Prod.fst).Nodup)
    (hp : m'.Perm m) (k : κ) : mapLookup m' k = mapLookup m k := by
  have hm' : (m'.map Prod.fst).Nodup := (hp.map Prod.fst).nodup_iff.mpr hm
  cases h : mapLookup m k with
  | none =>
    rw [mapLookup_eq_none_iff] at h ⊢
    intro hk
    exact h ((hp.map Prod.fst).mem_iff.mp hk)
  | some v =>
    rw [mapLookup_eq_some_iff m hm] at h
    rw [mapLookup_eq_some_iff m' hm']
    exact hp.mem_iff.mpr h

theorem mapAssign_of_not_mem (m : List (κ × ν)) (k : κ) (v : ν)
    (h : k ∉ m.map Prod.fst) : mapAssign m k v = m ++ [(k, v)] := by
  induction m with
  | nil => rfl
  | cons e m ih =>
    obtain ⟨k0, v0⟩ := e
    simp only [List.map_cons, List.mem_cons, not_or] at h
    simp [mapAssign, Ne.symm h.1, ih h.2]

theorem mapLookup_isSome_iff (m : List (κ × ν)) (k : κ) :
    (mapLookup m k).isSome = true ↔ k ∈ m.map Prod.fst := by
  have h := mapLookup_eq_none_iff m k
  cases hl : mapLookup m k with
  | none =>
    rw [hl] at h
    simp only [Option.isSome_none, Bool.false_eq_true, false_iff]
    exact h.mp rfl
  | some v =>
    rw [hl] at h
    simp only [Option.isSome_some, true_iff]
    by_contra hc
    exact absurd (h.mpr hc) (by simp)

theorem two_keys_of_count (m : List (ν × κ)) (hm : (m.map Prod.fst).Nodup) (v : κ)
    (h : 2 ≤ (m.map Prod.snd).count v) :
    ∃ k1 k2, k1 ≠ k2 ∧ (k1, v) ∈ m ∧ (k2, v) ∈ m := by
  induction m with
  | nil => simp at h
  | cons e m ih =>
    obtain ⟨k0, v0⟩ := e
    simp only [List.map_cons, List.nodup_cons] at hm
    obtain ⟨hnot, hnd⟩ := hm
    by_cases h0 : v0 = v
    · subst h0
      simp only [List.map_cons, List.count_cons_self] at h
      have hpos : 0 < (m.map Prod.snd).count v0 := by omega
      obtain ⟨e, he, hev⟩ := List.mem_map.mp (List.count_pos_iff.mp hpos)
      obtain ⟨k1, v1⟩ := e
      simp only at hev
      subst hev
      refine ⟨k0, k1, ?_, List.mem_cons_self _ _, List.mem_cons_of_mem _ he⟩
      intro hk
      subst hk
      exact hnot (List.mem_map_of_mem Prod.fst he)
    · simp only [List.map_cons, List.count_cons_of_ne (Ne.symm h0)] at h
      obtain ⟨k1, k2, hne, hm1, hm2⟩ := ih hnd h
      exact ⟨k1, k2, hne, List.mem_cons_of_mem _ hm1, List.mem_cons_of_mem _ hm2⟩

end MapLemmas

section InvertLemmas

variable {κ ν : Type} [DecidableEq ν]

theorem invertLoop_ok (rest : List (κ × ν)) (inverted : List (ν × κ))
    (hnd : (rest.map Prod.snd).Nodup)
    (hdis : ∀ e ∈ rest, e.2 ∉ inverted.map Prod.fst) :
    invertLoop rest inverted = .ok (inverted ++ rest.map Prod.swap) := by
  induction rest generalizing inverted with
  | nil => simp [invertLoop]
  | cons e rest ih =>
    obtain ⟨k, x⟩ := e
    simp only [List.map_cons, List.nodup_cons] at hnd
    obtain ⟨hx, hnd'⟩ := hnd
    have hxi : x ∉ inverted.map Prod.fst := hdis (k, x) (List.mem_cons_self _ _)
    have hnone : mapLookup inverted x = none := (mapLookup_eq_none_iff inverted x).mpr hxi
    rw [invertLoop, hnone, mapAssign_of_not_mem inverted x k hxi]
    simp only [Option.isSome_none, Bool.false_eq_true, if_false]
    rw [ih (inverted ++ [(x, k)]) hnd']
    · simp
    · intro e he
      simp only [List.map_append, List.map_cons, List.map_nil, List.mem_append,
        List.mem_singleton, not_or]
      refine ⟨hdis e (List.mem_cons_of_mem _ he), ?_⟩
      intro hex
      exact hx (hex ▸ List.mem_map_of_mem Prod.snd he)

theorem invertLoop_ok_nodup (rest : List (κ × ν)) (inverted r : List (ν × κ))
    (h : invertLoop rest inverted = .ok r) :
    (rest.map Prod.snd).Nodup ∧ ∀ e ∈ rest, e.2 ∉ inverted.map Prod.fst := by
  induction rest generalizing inverted with
  | nil => simp
  | cons e rest ih =>
    obtain ⟨k, x⟩ := e
    rw [invertLoop] at h
    split at h
    · cases h
    · rename_i hsome
      have hxi : x ∉ inverted.map Prod.fst := fun hc =>
        hsome ((mapLookup_isSome_iff inverted x).mpr hc)
      obtain ⟨hnd, hdis⟩ := ih _ h
      refine ⟨?_, ?_⟩
      · simp only [List.map_cons, List.nodup_cons]
        refine ⟨?_, hnd⟩
        intro hmem
        obtain ⟨e, he, hev⟩ := List.mem_map.mp hmem
        exact hdis e he ((mem_keys_mapAssign inverted x e.2 k).mpr (Or.inl hev))
      · intro e he
        rcases List.mem_cons.mp he with heq | hmem
        · subst heq
          exact hxi
        · intro hc
          exact hdis e hmem ((mem_keys_mapAssign inverted x e.2 k).mpr (Or.inr hc))

theorem invertLoop_error_count (rest : List (κ × ν)) (inverted : List (ν × κ)) (v : ν)
    (h : invertLoop rest inverted = .error v) :
    2 ≤ (inverted.map Prod.fst ++ rest.map Prod.snd).count v := by
  induction rest generalizing inverted with
  | nil => simp [invertLoop] at h
  | cons e rest ih =>
    obtain ⟨k, x⟩ := e
    rw [invertLoop] at h
    split at h
    · rename_i hsome
      have hmem := (mapLookup_isSome_iff inverted x).mp hsome
      have hpos := List.count_pos_iff.mpr hmem
      have hxv : x = v := by
        simpa using h
      subst hxv
      simp only [List.map_cons, List.count_append, List.count_cons_self]
      omega
    · rename_i hsome
      have hxi : x ∉ inverted.map Prod.fst := fun hc =>
        hsome ((mapLookup_isSome_iff inverted x).mpr hc)
      have := ih _ h
      rw [mapAssign_of_not_mem inverted x k hxi] at this
      simpa [List.count_append, Nat.add_assoc] using this

end InvertLemmas


/-- C15: for all maps `map1` and `map2` (entry lists with distinct keys, in any
iteration order), the result of `mergeMaps` is a map whose key set is the union
of the two key sets, with `result[k] = map2[k]` for every key `k` of `map2` and
`result[k] = map1[k]` for every key of `map1` that is not a key of `map2`; the
result does not depend on the order in which the two maps are iterated; and for
`{a:1, b:2}` and `{b:3, c:4}` it is `{a:1, b:3, c:4}`. -/
theorem mergeMaps_overwrites (map1 map2 : List (String × Int))
    (h1 : (map1.map Prod.fst).Nodup) (h2 : (map2.map Prod.fst).Nodup) :
    ((mergeMaps map1 map2).map Prod.fst).Nodup
      ∧ (∀ k, k ∈ (mergeMaps map1 map2).map Prod.fst
          ↔ k ∈ map1.map Prod.fst ∨ k ∈ map2.map Prod.fst)
      ∧ (∀ k v, mapLookup map2 k = some v → mapLookup (mergeMaps map1 map2) k = some v)
      ∧ (∀ k, mapLookup map2 k = none →
          mapLookup (mergeMaps map1 map2) k = mapLookup map1 k)
      ∧ (∀ map1' map2' : List (String × Int), map1'.Perm map1 → map2'.Perm map2 →
          ∀ k, mapLookup (mergeMaps map1' map2') k = mapLookup (mergeMaps map1 map2) k)
      ∧ mergeMaps [("a", 1), ("b", 2)] [("b", 3), ("c", 4)]
          = [("a", 1), ("b", 3), ("c", 4)] := by
  have hlook : ∀ (m1 m2 : List (String × Int)), (m1.map Prod.fst).Nodup →
      (m2.map Prod.fst).Nodup → ∀ k,
      mapLookup (mergeMaps m1 m2) k
        = match mapLookup m2 k with
          | some v => some v
          | none => mapLookup m1 k := by
    intro m1 m2 hm1 hm2 k
    unfold mergeMaps
    simp only
    rw [mapLookup_foldl m2 _ hm2, mapLookup_foldl m1 _ hm1]
    cases mapLookup m2 k with
    | some v => rfl
    | none =>
      cases mapLookup m1 k with
      | some v => rfl
      | none => rfl
  refine ⟨?_, ?_, ?_, ?_, ?_, by decide⟩
  · unfold mergeMaps
    exact keys_foldl_nodup map2 _ (keys_foldl_nodup map1 [] (by simp))
  · intro k
    unfold mergeMaps
    simp only
    rw [mem_keys_foldl, mem_keys_foldl]
    simp
  · intro k v hk
    rw [hlook map1 map2 h1 h2, hk]
  · intro k hk
    rw [hlook map1 map2 h1 h2, hk]
  · intro map1' map2' hp1 hp2 k
    have h1' : (map1'.map Prod.fst).Nodup := (hp1.map Prod.fst).nodup_iff.mpr h1
    have h2' : (map2'.map Prod.fst).Nodup := (hp2.map Prod.fst).nodup_iff.mpr h2
    rw [hlook map1 map2 h1 h2, hlook map1' map2' h1' h2',
      mapLookup_perm map1 map1' h1 hp1, mapLookup_perm map2 map2' h2 hp2]

/-- C15 witness: the colliding key `b` takes the value of the second map. -/
theorem mergeMaps_overwrites_witness :
    mapLookup (mergeMaps [("a", 1), ("b", 2)] [("b", 3), ("c", 4)]) "b" = some 3 :=
  (mergeMaps_overwrites [("a", 1), ("b", 2)] [("b", 3), ("c", 4)]
    (by decide) (by decide)).2.2.1 "b" 3 (by decide)

theorem invertMap_ok_iff (original : List (String × Int)) :
    (∃ r, invertMap original = .ok r) ↔ (original.map Prod.snd).Nodup := by
  constructor
  · rintro ⟨r, hr⟩
    exact (invertLoop_ok_nodup original [] r hr).1
  · intro hv
    exact ⟨_, invertLoop_ok original [] hv (by simp)⟩

/-- C16: for every map `original` (an entry list with distinct keys, in any
iteration order) whose values are pairwise distinct, `invertMap` returns no
error and a map `inverted` with `inverted[v] = k` exactly when `original[k] = v`
and with as many entries as `original`; inverting `inverted` again, in any
iteration order, returns a map equal to `original`; and `{a:1, b:2, c:3}` is
inverted to `{1:a, 2:b, 3:c}`. -/
theorem invertMap_swaps (original : List (String × Int))
    (hk : (original.map Prod.fst).Nodup) (hv : (original.map Prod.snd).Nodup) :
    ∃ inverted, invertMap original = .ok inverted
      ∧ (inverted.map Prod.fst).Nodup
      ∧ (∀ v k, mapLookup inverted v = some k ↔ mapLookup original k = some v)
      ∧ inverted.length = original.length
      ∧ (∀ inverted' : List (Int × String), inverted'.Perm inverted →
          ∃ back, invertMap inverted' = .ok back
            ∧ ∀ k, mapLookup back k = mapLookup original k)
      ∧ invertMap ([("a", 1), ("b", 2), ("c", 3)] : List (String × Int))
          = .ok [(1, "a"), (2, "b"), (3, "c")] := by
  have hswapk : ((original.map Prod.swap).map Prod.fst) = original.map Prod.snd := by
    simp [List.map_map, Function.comp_def]
  have hswapv : ((original.map Prod.swap).map Prod.snd) = original.map Prod.fst := by
    simp [List.map_map, Function.comp_def]
  have hinvk : ((original.map Prod.swap).map Prod.fst).Nodup := hswapk ▸ hv
  refine ⟨original.map Prod.swap, ?_, hinvk, ?_, by simp, ?_, rfl⟩
  · have := invertLoop_ok original [] hv (by simp)
    simpa [invertMap] using this
  · intro v k
    rw [mapLookup_eq_some_iff _ hinvk, mapLookup_eq_some_iff _ hk]
    simp [List.mem_map]
  · intro inverted' hp
    have hk' : (inverted'.map Prod.fst).Nodup := (hp.map Prod.fst).nodup_iff.mpr hinvk
    have hv' : (inverted'.map Prod.snd).Nodup :=
      (hp.map Prod.snd).nodup_iff.mpr (hswapv ▸ hk)
    refine ⟨inverted'.map Prod.swap, ?_, ?_⟩
    · have := invertLoop_ok inverted' [] hv' (by simp)
      simpa [invertMap] using this
    · intro k
      have hbk : ((inverted'.map Prod.swap).map Prod.fst).Nodup := by
        have e : ((inverted'.map Prod.swap).map Prod.fst) = inverted'.map Prod.snd := by
          simp [List.map_map, Function.comp_def]
        rw [e]
        exact hv'
      apply Option.ext
      intro v
      simp only [Option.mem_def]
      rw [mapLookup_eq_some_iff _ hbk, mapLookup_eq_some_iff _ hk]
      constructor
      · intro h
        obtain ⟨e, he, hev⟩ := List.mem_map.mp h
        have he' := hp.mem_iff.mp he
        obtain ⟨e0, he0, hev0⟩ := List.mem_map.mp he'
        obtain ⟨a, b⟩ := e0
        subst hev0
        simp only [Prod.swap_prod_mk, Prod.mk.injEq] at hev
        obtain ⟨rfl, rfl⟩ := hev
        exact he0
      · intro h
        have h1 : (v, k) ∈ original.map Prod.swap := List.mem_map.mpr ⟨(k, v), h, rfl⟩
        have h2 := hp.mem_iff.mpr h1
        exact List.mem_map.mpr ⟨(v, k), h2, rfl⟩

/-- C16 witness: the two-entry map `{x:10, y:20}`. -/
theorem invertMap_swaps_witness :
    ∃ inverted, invertMap ([("x", 10), ("y", 20)] : List (String × Int)) = .ok inverted
      ∧ inverted.length = ([("x", 10), ("y", 20)] : List (String × Int)).length :=
  let ⟨inverted, h1, _, _, h4, _⟩ :=
    invertMap_swaps [("x", 10), ("y", 20)] (by decide) (by decide)
  ⟨inverted, h1, h4⟩

/-- C19: for every map `original` (an entry list with distinct keys),
`invertMap` returns an error, and with it no map, if and only if two distinct
keys of `original` have the same value; the value named in the error occurs
under at least two distinct keys; and whether an error is returned does not
depend on the order in which the entries are iterated. -/
theorem invertMap_fails_iff (original : List (String × Int))
    (hk : (original.map Prod.fst).Nodup) :
    ((∃ v, invertMap original = .error v)
        ↔ ∃ k1 k2 v, k1 ≠ k2 ∧ mapLookup original k1 = some v
            ∧ mapLookup original k2 = some v)
      ∧ (∀ v, invertMap original = .error v →
          ∃ k1 k2, k1 ≠ k2 ∧ mapLookup original k1 = some v
            ∧ mapLookup original k2 = some v)
      ∧ (∀ original' : List (String × Int), original'.Perm original →
          ((∃ v, invertMap original' = .error v) ↔ ∃ v, invertMap original = .error v))
      ∧ invertMap ([("a", 1), ("b", 1)] : List (String × Int)) = .error 1 := by
  have herr : ∀ v, invertMap original = .error v →
      ∃ k1 k2, k1 ≠ k2 ∧ mapLookup original k1 = some v
        ∧ mapLookup original k2 = some v := by
    intro v h
    have hc := invertLoop_error_count original [] v h
    simp only [List.map_nil, List.nil_append] at hc
    obtain ⟨k1, k2, hne, h1, h2⟩ := two_keys_of_count original hk v hc
    exact ⟨k1, k2, hne, (mapLookup_eq_some_iff original hk k1 v).mpr h1,
      (mapLookup_eq_some_iff original hk k2 v).mpr h2⟩
  have hiff : ∀ o : List (String × Int),
      (∃ v, invertMap o = .error v) ↔ ¬ (o.map Prod.snd).Nodup := by
    intro o
    rw [← invertMap_ok_iff]
    cases hr : invertMap o with
    | error v => simp
    | ok r => simp
  refine ⟨⟨fun ⟨v, h⟩ => ?_, ?_⟩, herr, ?_, rfl⟩
  · obtain ⟨k1, k2, h⟩ := herr v h
    exact ⟨k1, k2, v, h⟩
  · rintro ⟨k1, k2, v, hne, h1, h2⟩
    rw [hiff]
    intro hnd
    rw [mapLookup_eq_some_iff original hk] at h1 h2
    have := List.inj_on_of_nodup_map hnd h1 h2 rfl
    exact hne (congrArg Prod.fst this)
  · intro original' hp
    rw [hiff, hiff, (hp.map Prod.snd).nodup_iff]

/-- C19 witness: `{a:1, b:1}` fails naming 1, which two keys hold. -/
theorem invertMap_fails_iff_witness :
    ∃ k1 k2, k1 ≠ k2
      ∧ mapLookup ([("a", 1), ("b", 1)] : List (String × Int)) k1 = some 1
      ∧ mapLookup ([("a", 1), ("b", 1)] : List (String × Int)) k2 = some 1 :=
  (invertMap_fails_iff [("a", 1), ("b", 1)] (by decide)).2.1 1 rfl

end Project
